import Mathlib

/-!
# Verification of the Rust-Database storage engine

A shallow embedding of the key-value storage engine: the LZ77-style value
codec (`src/codec.rs`), the record codec (`DataEntry::to_bytes`,
`MyDatabase::decode_buffer`), the log iterator (`LogIter::next`), index
recovery (`MyDatabase::recover_index`) and the engine operations
(`set`, `get`, `delete`, `compact`, `maybe_compact` from `src/db.rs`).

Bytes are modelled as natural numbers (`u8` values are < 256); machine
integers are `Nat` with explicit `% 2^32` / `% 2^16` where the Rust code
casts or wraps.  Loops are embedded as structurally recursive functions on
an explicit fuel argument; the fuel is always instantiated with an upper
bound on the number of loop iterations, so the embedded function agrees
with the source loop.
-/

set_option maxRecDepth 4000

namespace RustDb

/-- A byte string: each element models one `u8`. -/
abbrev Bytes := List Nat

/-- `(n as u16).to_be_bytes()`: big-endian bytes of a 16-bit value. -/
def be16 (n : Nat) : Bytes := [n % 65536 / 256, n % 256]

/-- `(n as u32).to_be_bytes()`: big-endian bytes of a 32-bit value. -/
def be32 (n : Nat) : Bytes :=
  [n % 2 ^ 32 / 2 ^ 24, n % 2 ^ 24 / 2 ^ 16, n % 2 ^ 16 / 2 ^ 8, n % 256]

/-- `u32::from_be_bytes([a, b, c, d])`. -/
def fromBe32 (a b c d : Nat) : Nat := a * 2 ^ 24 + b * 2 ^ 16 + c * 2 ^ 8 + d

/-- The running `u32` checksum: `checksum = checksum.wrapping_add(byte as u32)`
over a byte slice, starting from `0`. -/
def checksumFold (bs : Bytes) : Nat := bs.foldl (fun a b => (a + b) % 2 ^ 32) 0

/-! ## The LZ77 value codec (`src/codec.rs`) -/

/-- The inner `while` loop of `find_longest_match`: extend the match at
window position `j` against position `pos` while below `max_len = 255`,
inside the input, and bytes agree.  The fuel bounds the remaining
extensions; it is called with `255` (the loop performs at most
`255 - len` iterations starting from `len`). -/
def matchLenAux (input : Bytes) (j pos : Nat) : Nat → Nat → Nat
  | len, 0 => len
  | len, fuel + 1 =>
      if len < 255 ∧ pos + len < input.length ∧
          input.getD (j + len) 0 = input.getD (pos + len) 0 then
        matchLenAux input j pos (len + 1) fuel
      else len

/-- Length of the prefix match between window position `j` and position
`pos`, capped at 255 (`find_longest_match`'s inner loop from `len = 0`). -/
def matchLenFrom (input : Bytes) (j pos : Nat) : Nat :=
  matchLenAux input j pos 0 255

/-- The outer `for j in start..pos` loop of `find_longest_match`, keeping
the best `(dist, len)` seen so far; a strictly longer match replaces the
best, and the loop breaks once `best_len == 255`.  Fuel is the number of
remaining positions (`pos - j`). -/
def flmLoop (input : Bytes) (pos : Nat) : Nat → Nat → Nat → Nat → Nat × Nat
  | 0, _, bestDist, bestLen => (bestDist, bestLen)
  | fuel + 1, j, bestDist, bestLen =>
      if j < pos then
        let len := matchLenFrom input j pos
        if bestLen < len then
          if len = 255 then (pos - j, len)
          else flmLoop input pos fuel (j + 1) (pos - j) len
        else flmLoop input pos fuel (j + 1) bestDist bestLen
      else (bestDist, bestLen)

/-- `find_longest_match(input, pos)` from `src/codec.rs`: search the window
`start = pos.saturating_sub(4095)` (`Nat` subtraction is saturating) up to
`pos` for the longest, earliest prefix match. -/
def find_longest_match (input : Bytes) (pos : Nat) : Nat × Nat :=
  flmLoop input pos (pos - (pos - 4095)) (pos - 4095) 0 0

/-- `emit_literals`: push tag `0`, the literal count (`len as u8`) and the
buffered literal bytes. -/
def emit_literals (literals : Bytes) : Bytes :=
  0 :: literals.length % 256 :: literals

/-- The main `while i < input.len()` loop of `lz77_encode`, returning the
bytes the loop appends to `out` from state `(i, literals)`.  Fuel bounds
the iteration count; every iteration advances `i` by at least one, so fuel
`input.length` suffices from `i = 0`.  On fuel exhaustion the literal
buffer is flushed exactly as at loop exit. -/
def encLoop (input : Bytes) : Nat → Nat → Bytes → Bytes
  | 0, _, literals => if literals.isEmpty then [] else emit_literals literals
  | fuel + 1, i, literals =>
      if i < input.length then
        let dl := find_longest_match input i
        if 3 ≤ dl.2 then
          (if literals.isEmpty then [] else emit_literals literals) ++
            1 :: be16 dl.1 ++ dl.2 % 256 :: encLoop input fuel (i + dl.2) []
        else
          let lits := literals ++ [input.getD i 0]
          if lits.length = 255 then emit_literals lits ++ encLoop input fuel (i + 1) []
          else encLoop input fuel (i + 1) lits
      else if literals.isEmpty then [] else emit_literals literals

/-- `lz77_encode` from `src/codec.rs`. -/
def lz77_encode (input : Bytes) : Bytes :=
  if input.isEmpty then [] else encLoop input input.length 0 []

/-- The back-reference copy loop of `lz77_decode`: `len` times, push
`out[out.len() - dist]` onto the growing output. -/
def copyLoop (out : Bytes) (dist : Nat) : Nat → Bytes
  | 0 => out
  | n + 1 => copyLoop (out ++ [out.getD (out.length - dist) 0]) dist n

/-- The main `while i < input.len()` loop of `lz77_decode`, consuming the
remaining encoded bytes with the decoded output accumulated in `out`.
Fuel bounds the chunk count; each chunk consumes at least two input bytes,
so fuel `input.length` suffices. -/
def decLoop : Nat → Bytes → Bytes → Option Bytes
  | _, [], out => some out
  | 0, _ :: _, _ => none
  | fuel + 1, tag :: rest, out =>
      match tag, rest with
      | 0, [] => none
      | 0, len :: rest2 =>
          if len = 0 ∨ rest2.length < len then none
          else decLoop fuel (rest2.drop len) (out ++ rest2.take len)
      | 1, d1 :: d2 :: len :: rest3 =>
          let dist := d1 * 256 + d2
          if dist = 0 ∨ len = 0 ∨ out.length < dist then none
          else decLoop fuel rest3 (copyLoop out dist len)
      | 1, _ => none
      | _, _ => none

/-- `lz77_decode` from `src/codec.rs`; `none` models
`Err(DatabaseError::InvalidFormat)`. -/
def lz77_decode (input : Bytes) : Option Bytes :=
  if input.isEmpty then some [] else decLoop input.length input []

/-! ## The record codec (`DataEntry::to_bytes`, `MyDatabase::decode_buffer`) -/

/-- `EntryType` from `src/codec.rs`. -/
inductive EntryType
  | Data
  | Tombstone
deriving DecidableEq, Repr

/-- `DataEntry` from `src/codec.rs`. -/
structure DataEntry where
  entry_type : EntryType
  key : Bytes
  value : Bytes
deriving DecidableEq, Repr

/-- `DataEntry::to_bytes`: `[type (1B)] [key_len (4B)] [val_len (4B)]
[key] [lz77-encoded value] [checksum (4B)]`. -/
def DataEntry.to_bytes (e : DataEntry) : Bytes :=
  let type_byte := match e.entry_type with
    | .Data => 0
    | .Tombstone => 1
  let encoded_value := lz77_encode e.value
  let buffer :=
    type_byte :: (be32 e.key.length ++ be32 encoded_value.length ++ e.key ++ encoded_value)
  buffer ++ be32 (checksumFold buffer)

/-- `DatabaseError` from `src/error.rs` (payloads of `Io`, `KeyNotFound`,
`ParseError`, `Utf8` and `LockPoisoned` are irrelevant to the claims and
dropped). -/
inductive DatabaseError
  | Io
  | CorruptedData
  | InvalidFormat
  | KeyNotFound
  | ParseError
  | Utf8
  | LockPoisoned
deriving DecidableEq, Repr

instance {ε α : Type} [DecidableEq ε] [DecidableEq α] : DecidableEq (Except ε α) := fun x y =>
  match x, y with
  | .ok a, .ok b =>
      if h : a = b then isTrue (by rw [h]) else isFalse (by intro hc; cases hc; exact h rfl)
  | .ok _, .error _ => isFalse (by intro hc; cases hc)
  | .error _, .ok _ => isFalse (by intro hc; cases hc)
  | .error a, .error b =>
      if h : a = b then isTrue (by rw [h]) else isFalse (by intro hc; cases hc; exact h rfl)

/-- The declared key length of a frame buffer
(`u32::from_be_bytes(buffer[1..5])`). -/
def bufKeyLen (buffer : Bytes) : Nat :=
  fromBe32 (buffer.getD 1 0) (buffer.getD 2 0) (buffer.getD 3 0) (buffer.getD 4 0)

/-- The declared encoded-value length of a frame buffer
(`u32::from_be_bytes(buffer[5..9])`). -/
def bufValLen (buffer : Bytes) : Nat :=
  fromBe32 (buffer.getD 5 0) (buffer.getD 6 0) (buffer.getD 7 0) (buffer.getD 8 0)

/-- `MyDatabase::decode_buffer` from `src/db.rs`. -/
def decode_buffer (buffer : Bytes) (key : Bytes) : Except DatabaseError (Option Bytes) :=
  if buffer.length < 9 then .error .InvalidFormat
  else if buffer.getD 0 0 = 1 then .ok none
  else
    let key_len := bufKeyLen buffer
    let value_len := bufValLen buffer
    let total_len := 9 + key_len + value_len + 4
    if buffer.length < total_len then .error .CorruptedData
    else
      let value_end := 9 + key_len + value_len
      if (buffer.drop 9).take key_len ≠ key then .ok none
      else
        let somme := checksumFold (buffer.take value_end)
        let stored := fromBe32 (buffer.getD value_end 0) (buffer.getD (value_end + 1) 0)
          (buffer.getD (value_end + 2) 0) (buffer.getD (value_end + 3) 0)
        if somme ≠ stored then .error .CorruptedData
        else
          match lz77_decode ((buffer.drop (9 + key_len)).take value_len) with
          | none => .error .InvalidFormat
          | some decoded => .ok (some decoded)

/-! ## The engine state and operations (`src/db.rs`)

The engine's file is modelled by its byte content `log`; the in-memory
`HashMap` index is modelled by an association list where
`insert` replaces in place (`insertA`).  Filesystem and lock errors do not
arise in the pure model, so operations fail only where the Rust code
returns a decoding/read error. -/

/-- `IndexEntry` from `src/db.rs`. -/
structure IndexEntry where
  offset : Nat
  size : Nat
deriving DecidableEq, Repr

/-- `HashMap::insert`: replace the binding of `k` in place, or append. -/
def insertA (m : List (Bytes × IndexEntry)) (k : Bytes) (e : IndexEntry) :
    List (Bytes × IndexEntry) :=
  match m with
  | [] => [(k, e)]
  | (k', e') :: rest => if k' = k then (k, e) :: rest else (k', e') :: insertA rest k e

/-- `HashMap::get`. -/
def lookupA (m : List (Bytes × IndexEntry)) (k : Bytes) : Option IndexEntry :=
  match m with
  | [] => none
  | (k', e') :: rest => if k' = k then some e' else lookupA rest k

/-- The shared engine state: log file content, index, and the configured
`max_size`. -/
structure DBState where
  log : Bytes
  index : List (Bytes × IndexEntry)
  maxSize : Nat
deriving DecidableEq, Repr

/-- `MyDatabase::read_entry_value`: seek to `entry.offset`, read exactly
`entry.size` bytes (an out-of-range read is an I/O error), decode. -/
def read_entry_value (log : Bytes) (entry : IndexEntry) (key : Bytes) :
    Except DatabaseError (Option Bytes) :=
  if entry.offset + entry.size ≤ log.length then
    decode_buffer ((log.drop entry.offset).take entry.size) key
  else .error .Io

namespace MyDatabase

/-- `MyDatabase::get`. -/
def get (s : DBState) (key : Bytes) : Except DatabaseError (Option Bytes) :=
  match lookupA s.index key with
  | none => .ok none
  | some entry => read_entry_value s.log entry key

/-- The append-and-index part of `MyDatabase::set` (everything before
`maybe_compact`): serialize a Data record, append it at end of file, and
point the index at the newly written frame. -/
def setRaw (s : DBState) (key value : Bytes) : DBState :=
  let bytes := (DataEntry.mk .Data key value).to_bytes
  { s with
    log := s.log ++ bytes
    index := insertA s.index key ⟨s.log.length, bytes.length % 2 ^ 32⟩ }

/-- The append-and-index part of `MyDatabase::delete`: like `setRaw` but
with a Tombstone record carrying an empty value. -/
def deleteRaw (s : DBState) (key : Bytes) : DBState :=
  let bytes := (DataEntry.mk .Tombstone key []).to_bytes
  { s with
    log := s.log ++ bytes
    index := insertA s.index key ⟨s.log.length, bytes.length % 2 ^ 32⟩ }

/-- The read-back loop of `MyDatabase::compact`: materialize each snapshot
entry's live value through the old log, skipping tombstones and stale
keys (`None` results). -/
def collectLive (log : Bytes) : List (Bytes × IndexEntry) →
    Except DatabaseError (List (Bytes × Bytes))
  | [] => .ok []
  | (k, e) :: rest => do
      let v? ← read_entry_value log e k
      let tail ← collectLive log rest
      match v? with
      | some v => .ok ((k, v) :: tail)
      | none => .ok tail

/-- The write-out loop of `MyDatabase::compact`: serialize a fresh Data
record per live pair, append it to the new log, and record its new
`(offset, size)` in the fresh index. -/
def buildCompacted : List (Bytes × Bytes) → Bytes → List (Bytes × IndexEntry) →
    Bytes × List (Bytes × IndexEntry)
  | [], log, idx => (log, idx)
  | (k, v) :: rest, log, idx =>
      let bytes := (DataEntry.mk .Data k v).to_bytes
      buildCompacted rest (log ++ bytes) (insertA idx k ⟨log.length, bytes.length % 2 ^ 32⟩)

/-- Stable insertion into a list sorted by ascending offset (the
`sort_by_key(|(_, entry)| entry.offset)` of `MyDatabase::compact`). -/
def insertByOffset (p : Bytes × IndexEntry) :
    List (Bytes × IndexEntry) → List (Bytes × IndexEntry)
  | [] => [p]
  | q :: rest =>
      if q.2.offset ≤ p.2.offset then q :: insertByOffset p rest else p :: q :: rest

/-- Sort the index snapshot by ascending offset. -/
def sortByOffset : List (Bytes × IndexEntry) → List (Bytes × IndexEntry)
  | [] => []
  | p :: rest => insertByOffset p (sortByOffset rest)

/-- `MyDatabase::compact`: snapshot the index sorted by offset, read every
live value through the old log, rewrite a fresh log of Data frames, and
install the new log and index (the temp-file dance and rename are the
filesystem realization of this replacement). -/
def compact (s : DBState) : Except DatabaseError DBState := do
  let snapshot := sortByOffset s.index
  let live ← collectLive s.log snapshot
  let (newLog, newIndex) := buildCompacted live [] []
  .ok { s with log := newLog, index := newIndex }

/-- The `loop` of `MyDatabase::maybe_compact`: while the log length is at
least `max_size`, compact; stop when a pass does not shrink the log.  Each
recursive step strictly shrinks the log, so fuel `s.log.length + 1`
suffices. -/
def maybeCompactLoop : Nat → DBState → Except DatabaseError DBState
  | 0, s => .ok s
  | fuel + 1, s =>
      if s.log.length < s.maxSize then .ok s
      else do
        let s' ← compact s
        if s.log.length ≤ s'.log.length then .ok s'
        else maybeCompactLoop fuel s'

/-- `MyDatabase::maybe_compact`. -/
def maybe_compact (s : DBState) : Except DatabaseError DBState :=
  if s.maxSize = 0 then .ok s
  else maybeCompactLoop (s.log.length + 1) s

/-- `MyDatabase::set`: append, index, then `maybe_compact`. -/
def set (s : DBState) (key value : Bytes) : Except DatabaseError DBState :=
  maybe_compact (setRaw s key value)

/-- `MyDatabase::delete`: append a tombstone, index it, then
`maybe_compact`. -/
def delete (s : DBState) (key : Bytes) : Except DatabaseError DBState :=
  maybe_compact (deleteRaw s key)

end MyDatabase

/-! ## The log iterator and index recovery (`LogIter::next`,
`MyDatabase::recover_index`) -/

/-- `LogRecord` from `src/db.rs`. -/
structure LogRecord where
  offset : Nat
  size : Nat
  entry_type : EntryType
  key : Bytes
  value_len : Nat
  checksum_ok : Bool
deriving DecidableEq, Repr

/-- Repeated `LogIter::next` from offset `offset` over the remaining
`bytes`: the records yielded before iteration stops, paired with the
terminating error element, if any (`none` is normal end of file; a header
or body cut short by end of file also ends the iteration normally).  One
fuel unit is spent per record, and a record consumes at least 13 bytes,
so fuel `bytes.length` suffices. -/
def logIterLoop : Nat → Bytes → Nat → List LogRecord × Option DatabaseError
  | 0, _, _ => ([], none)
  | fuel + 1, bytes, offset =>
      if bytes.length < 9 then ([], none)
      else if bytes.getD 0 0 ≠ 0 ∧ bytes.getD 0 0 ≠ 1 then ([], some .InvalidFormat)
      else
        let entry_type := if bytes.getD 0 0 = 1 then EntryType.Tombstone else EntryType.Data
        let key_len := bufKeyLen bytes
        let value_len := bufValLen bytes
        let total_size := 9 + key_len + value_len + 4
        let body_len := key_len + value_len + 4
        if bytes.length - 9 < body_len then ([], none)
        else
          let body := (bytes.drop 9).take body_len
          let checksum_start := key_len + value_len
          let stored := fromBe32 (body.getD checksum_start 0) (body.getD (checksum_start + 1) 0)
            (body.getD (checksum_start + 2) 0) (body.getD (checksum_start + 3) 0)
          let sum := checksumFold (bytes.take 9 ++ body.take checksum_start)
          let record : LogRecord :=
            ⟨offset, total_size % 2 ^ 32, entry_type, body.take key_len, value_len,
              decide (sum = stored)⟩
          let rest := logIterLoop fuel (bytes.drop (9 + body_len)) (offset + total_size)
          (record :: rest.1, rest.2)

/-- All records the log iterator yields over a log file, with the
terminating error element if any. -/
def logRecords (bytes : Bytes) : List LogRecord × Option DatabaseError :=
  logIterLoop bytes.length bytes 0

/-- The body of `MyDatabase::recover_index`'s `for` loop over the yielded
records: any record with a failed checksum aborts with `CorruptedData`;
otherwise each record's `(offset, size)` is inserted under its key. -/
def recoverFromRecords (idx : List (Bytes × IndexEntry)) :
    List LogRecord → Except DatabaseError (List (Bytes × IndexEntry))
  | [] => .ok idx
  | r :: rest =>
      if r.checksum_ok then recoverFromRecords (insertA idx r.key ⟨r.offset, r.size⟩) rest
      else .error .CorruptedData

/-- `MyDatabase::recover_index`: run the iterator to completion; a failed
checksum yields `CorruptedData`; an error element of the iterator (which
comes after every yielded record) is propagated. -/
def recover_index (bytes : Bytes) : Except DatabaseError (List (Bytes × IndexEntry)) :=
  let it := logRecords bytes
  match recoverFromRecords [] it.1 with
  | .error e => .error e
  | .ok idx =>
      match it.2 with
      | some e => .error e
      | none => .ok idx

/-- `MyDatabase::new`: open (possibly empty) log content and rebuild the
index; refuse to open when recovery fails. -/
def MyDatabase.new (bytes : Bytes) (maxSize : Nat) : Except DatabaseError DBState :=
  match recover_index bytes with
  | .error e => .error e
  | .ok idx => .ok ⟨bytes, idx, maxSize⟩

/-! ## Ghost layer: logical frames behind a log file

A reachable engine state's log is a concatenation of frames, and its index
is exactly what recovery would rebuild: each key maps to the frame with
the largest offset carrying it (spec invariant I2). -/

/-- A logical record: what one frame of the log serializes. -/
structure Frame where
  typ : EntryType
  key : Bytes
  value : Bytes
deriving DecidableEq, Repr

/-- The on-disk bytes of a frame. -/
def frameBytes (f : Frame) : Bytes := (DataEntry.mk f.typ f.key f.value).to_bytes

/-- Size bounds under which the `as u32` casts in `to_bytes` are exact. -/
def GoodFrame (f : Frame) : Prop :=
  f.key.length < 2 ^ 32 ∧ (lz77_encode f.value).length < 2 ^ 32

instance (f : Frame) : Decidable (GoodFrame f) := by unfold GoodFrame; infer_instance

/-- A frame small enough that the `bytes.len() as u32` cast on its index
`size` field is exact. -/
def SmallFrame (f : Frame) : Prop := (frameBytes f).length < 2 ^ 32

instance (f : Frame) : Decidable (SmallFrame f) := by unfold SmallFrame; infer_instance

/-- The log file contents determined by a frame sequence. -/
def logOf (fs : List Frame) : Bytes := (fs.map frameBytes).flatten

/-- Fold the frames of a log into an index, inserting each frame's
`(offset, size)` under its key in file order — the index recovery builds,
and the one every reachable state carries. -/
def indexAux : List Frame → Nat → List (Bytes × IndexEntry) → List (Bytes × IndexEntry)
  | [], _, acc => acc
  | f :: fs, off, acc =>
      indexAux fs (off + (frameBytes f).length)
        (insertA acc f.key ⟨off, (frameBytes f).length % 2 ^ 32⟩)

/-- The index of a reachable state over frames `fs`. -/
def indexOf (fs : List Frame) : List (Bytes × IndexEntry) := indexAux fs 0 []

/-- The frame with the largest offset carrying key `k`, with its offset
(offsets counted from `off`). -/
def replayLookup : List Frame → Bytes → Nat → Option (Nat × Frame)
  | [], _, _ => none
  | f :: fs, k, off =>
      match replayLookup fs k (off + (frameBytes f).length) with
      | some r => some r
      | none => if f.key = k then some (off, f) else none

/-- The observable value of key `k` in a log of frames `fs`: the value of
the most recent Data frame for `k`, unless the most recent frame for `k`
is a tombstone. -/
def liveValue (fs : List Frame) (k : Bytes) : Option Bytes :=
  match replayLookup fs k 0 with
  | some (_, f) => if f.typ = EntryType.Data then some f.value else none
  | none => none

/-- A reachable, well-formed state: the log is the concatenation of frames
`fs` with exact `u32` casts, and the index is the recovered one. -/
def WF (s : DBState) (fs : List Frame) : Prop :=
  (∀ f ∈ fs, GoodFrame f ∧ SmallFrame f) ∧ s.log = logOf fs ∧ s.index = indexOf fs

/-- The type byte of a frame. -/
def typeByte : EntryType → Nat
  | .Data => 0
  | .Tombstone => 1

/-- The frame bytes before the checksum trailer. -/
def payloadBytes (t : EntryType) (k v : Bytes) : Bytes :=
  typeByte t :: (be32 k.length ++ be32 (lz77_encode v).length ++ k ++ lz77_encode v)

/-- The log record the iterator yields for frame `f` at offset `off`. -/
def recordOf (f : Frame) (off : Nat) : LogRecord :=
  ⟨off, (frameBytes f).length % 2 ^ 32, f.typ, f.key, (lz77_encode f.value).length, true⟩

/-- The records the iterator yields over `logOf fs`, first frame at
offset `off`. -/
def recordsOf : List Frame → Nat → List LogRecord
  | [], _ => []
  | f :: fs, off => recordOf f off :: recordsOf fs (off + (frameBytes f).length)

/-- Total of the `size` fields of an index. -/
def sumSizes (m : List (Bytes × IndexEntry)) : Nat :=
  (m.map (fun p => p.2.size)).sum

/-- The live `(key, value)` pairs compaction materializes from a snapshot:
entries whose key still observes a value, in snapshot order. -/
def liveList (fs : List Frame) : List (Bytes × IndexEntry) → List (Bytes × Bytes)
  | [] => []
  | (k, _) :: rest =>
      match liveValue fs k with
      | some v => (k, v) :: liveList fs rest
      | none => liveList fs rest

/-! ## Byte-level lemmas -/

theorem fromBe32_be32 (n : Nat) :
    fromBe32 (n % 2 ^ 32 / 2 ^ 24) (n % 2 ^ 24 / 2 ^ 16) (n % 2 ^ 16 / 2 ^ 8) (n % 256) =
      n % 2 ^ 32 := by
  unfold fromBe32
  omega

theorem be32_eq (n : Nat) :
    be32 n = n % 2 ^ 32 / 2 ^ 24 :: n % 2 ^ 24 / 2 ^ 16 :: n % 2 ^ 16 / 2 ^ 8 :: [n % 256] :=
  rfl

@[simp] theorem be32_length (n : Nat) : (be32 n).length = 4 := rfl

@[simp] theorem be16_length (n : Nat) : (be16 n).length = 2 := rfl

theorem be32_lt (n : Nat) : ∀ b ∈ be32 n, b < 256 := by
  intro b hb
  simp only [be32, List.mem_cons, List.not_mem_nil, or_false] at hb
  rcases hb with h | h | h | h <;> subst h <;> omega

theorem be16_lt (n : Nat) : ∀ b ∈ be16 n, b < 256 := by
  intro b hb
  simp only [be16, List.mem_cons, List.not_mem_nil, or_false] at hb
  rcases hb with h | h <;> subst h <;> omega

theorem checksumFold_from (bs : Bytes) :
    ∀ a, a < 2 ^ 32 → bs.foldl (fun x b => (x + b) % 2 ^ 32) a = (a + bs.sum) % 2 ^ 32 := by
  induction bs with
  | nil => intro a ha; simp; omega
  | cons b rest ih =>
      intro a ha
      simp only [List.foldl_cons, List.sum_cons]
      rw [ih ((a + b) % 2 ^ 32) (Nat.mod_lt _ (by norm_num)), Nat.mod_add_mod]
      ring_nf

theorem checksumFold_eq_sum (bs : Bytes) : checksumFold bs = bs.sum % 2 ^ 32 := by
  unfold checksumFold
  rw [checksumFold_from bs 0 (by norm_num)]
  simp

theorem checksumFold_lt (bs : Bytes) : checksumFold bs < 2 ^ 32 := by
  rw [checksumFold_eq_sum]
  exact Nat.mod_lt _ (by norm_num)

/-! ## Properties of `find_longest_match` -/

theorem matchLenAux_le (input : Bytes) (j pos : Nat) :
    ∀ fuel len, matchLenAux input j pos len fuel ≤ len + fuel := by
  intro fuel
  induction fuel with
  | zero => intro len; simp [matchLenAux]
  | succ n ih =>
      intro len
      rw [matchLenAux]
      split
      · exact le_trans (ih (len + 1)) (by omega)
      · omega

theorem le_matchLenAux (input : Bytes) (j pos : Nat) :
    ∀ fuel len, len ≤ matchLenAux input j pos len fuel := by
  intro fuel
  induction fuel with
  | zero => intro len; simp [matchLenAux]
  | succ n ih =>
      intro len
      rw [matchLenAux]
      split
      · exact le_trans (by omega) (ih (len + 1))
      · exact le_refl _

theorem matchLenAux_cap (input : Bytes) (j pos : Nat) :
    ∀ fuel len, len ≤ 255 → matchLenAux input j pos len fuel ≤ 255 := by
  intro fuel
  induction fuel with
  | zero => intro len h; simpa [matchLenAux] using h
  | succ n ih =>
      intro len h
      rw [matchLenAux]
      split
      · rename_i hcond
        exact ih (len + 1) (by omega)
      · exact h

theorem matchLenFrom_le (input : Bytes) (j pos : Nat) : matchLenFrom input j pos ≤ 255 :=
  matchLenAux_cap input j pos 255 0 (by omega)

theorem matchLenAux_agree (input : Bytes) (j pos : Nat) :
    ∀ fuel len, (∀ t, t < len → input.getD (j + t) 0 = input.getD (pos + t) 0) →
      ∀ t, t < matchLenAux input j pos len fuel →
        input.getD (j + t) 0 = input.getD (pos + t) 0 := by
  intro fuel
  induction fuel with
  | zero => intro len h t ht; exact h t (by simpa [matchLenAux] using ht)
  | succ n ih =>
      intro len h t ht
      rw [matchLenAux] at ht
      split at ht
      · rename_i hcond
        refine ih (len + 1) ?_ t ht
        intro t' ht'
        rcases Nat.lt_succ_iff_lt_or_eq.mp ht' with h' | h'
        · exact h t' h'
        · subst h'; exact hcond.2.2
      · exact h t ht

theorem matchLenFrom_agree (input : Bytes) (j pos : Nat) :
    ∀ t, t < matchLenFrom input j pos →
      input.getD (j + t) 0 = input.getD (pos + t) 0 :=
  matchLenAux_agree input j pos 255 0 (by omega)

theorem matchLenAux_inbound (input : Bytes) (j pos : Nat) :
    ∀ fuel len, matchLenAux input j pos len fuel = len ∨
      pos + matchLenAux input j pos len fuel ≤ input.length := by
  intro fuel
  induction fuel with
  | zero => intro len; left; simp [matchLenAux]
  | succ n ih =>
      intro len
      rw [matchLenAux]
      split
      · rename_i hcond
        right
        rcases ih (len + 1) with h | h
        · omega
        · exact h
      · left; rfl

theorem matchLenFrom_inbound (input : Bytes) (j pos : Nat) :
    matchLenFrom input j pos = 0 ∨ pos + matchLenFrom input j pos ≤ input.length :=
  matchLenAux_inbound input j pos 255 0

/-- The outcome of the best-match loop: the final length is capped at 255,
dominates every window position's match length, and (when positive) is
attained at the window position of largest distance among those attaining
it — the loop only replaces the best on a strictly longer match, scanning
distances in decreasing order. -/
theorem flmLoop_spec (input : Bytes) (pos : Nat) :
    ∀ fuel j bd bl, j + fuel = pos → pos ≤ 4095 + j → bl ≤ 255 →
      (0 < bl → ∃ j0, j0 < j ∧ pos ≤ 4095 + j0 ∧ bd = pos - j0 ∧
        matchLenFrom input j0 pos = bl ∧
        ∀ j', pos ≤ 4095 + j' → j' < j0 → matchLenFrom input j' pos < bl) →
      (∀ j', pos ≤ 4095 + j' → j' < j → matchLenFrom input j' pos ≤ bl) →
      (flmLoop input pos fuel j bd bl).2 ≤ 255 ∧
      (0 < (flmLoop input pos fuel j bd bl).2 →
        ∃ j0, j0 < pos ∧ pos ≤ 4095 + j0 ∧
          (flmLoop input pos fuel j bd bl).1 = pos - j0 ∧
          matchLenFrom input j0 pos = (flmLoop input pos fuel j bd bl).2 ∧
          ∀ j', pos ≤ 4095 + j' → j' < j0 →
            matchLenFrom input j' pos < (flmLoop input pos fuel j bd bl).2) ∧
      (∀ j', pos ≤ 4095 + j' → j' < pos →
        matchLenFrom input j' pos ≤ (flmLoop input pos fuel j bd bl).2) := by
  intro fuel
  induction fuel with
  | zero =>
      intro j bd bl hj hwj hble hbest hall
      have hjp : j = pos := by omega
      subst hjp
      rw [flmLoop]
      exact ⟨hble, fun h => by simpa using hbest h, hall⟩
  | succ n ih =>
      intro j bd bl hj hwj hble hbest hall
      rw [flmLoop]
      have hjlt : j < pos := by omega
      simp only [if_pos hjlt]
      by_cases hgt : bl < matchLenFrom input j pos
      · simp only [if_pos hgt]
        by_cases h255 : matchLenFrom input j pos = 255
        · simp only [if_pos h255]
          refine ⟨by omega, fun _ => ⟨j, hjlt, by omega, rfl, by omega, ?_⟩, ?_⟩
          · intro j' hw hlt
            exact lt_of_le_of_lt (hall j' hw (by omega)) (by omega)
          · intro j' _ _
            simpa only [h255] using matchLenFrom_le input j' pos
        · simp only [if_neg h255]
          refine ih (j + 1) (pos - j) (matchLenFrom input j pos) (by omega) (by omega)
            (matchLenFrom_le input j pos) (fun _ => ⟨j, by omega, by omega, rfl, rfl, ?_⟩) ?_
          · intro j' hw hlt
            exact lt_of_le_of_lt (hall j' hw hlt) hgt
          · intro j' hw hlt
            rcases Nat.lt_succ_iff_lt_or_eq.mp hlt with h' | h'
            · exact le_trans (hall j' hw h') (by omega)
            · subst h'; exact le_refl _
      · simp only [if_neg hgt]
        refine ih (j + 1) bd bl (by omega) (by omega) hble (fun h => ?_) ?_
        · obtain ⟨j0, h1, h2, h3, h4, h5⟩ := hbest h
          exact ⟨j0, by omega, h2, h3, h4, h5⟩
        · intro j' hw hlt
          rcases Nat.lt_succ_iff_lt_or_eq.mp hlt with h' | h'
          · exact hall j' hw h'
          · subst h'; omega

/-- The specification of `find_longest_match`: length capped at 255,
maximal over the window, and attained at the smallest window position
(hence the largest distance) among the positions attaining it. -/
theorem find_longest_match_spec (input : Bytes) (pos : Nat) :
    (find_longest_match input pos).2 ≤ 255 ∧
    (0 < (find_longest_match input pos).2 →
      ∃ j0, j0 < pos ∧ pos ≤ 4095 + j0 ∧
        (find_longest_match input pos).1 = pos - j0 ∧
        matchLenFrom input j0 pos = (find_longest_match input pos).2 ∧
        ∀ j', pos ≤ 4095 + j' → j' < j0 →
          matchLenFrom input j' pos < (find_longest_match input pos).2) ∧
    (∀ j', pos ≤ 4095 + j' → j' < pos →
      matchLenFrom input j' pos ≤ (find_longest_match input pos).2) := by
  refine flmLoop_spec input pos (pos - (pos - 4095)) (pos - 4095) 0 0 (by omega) (by omega)
    (by omega) (by omega) ?_
  intro j' hw hlt
  omega

/-- The facts about a positive best match that encoder correctness uses. -/
theorem find_longest_match_pos (input : Bytes) (pos : Nat)
    (h : 0 < (find_longest_match input pos).2) :
    1 ≤ (find_longest_match input pos).1 ∧
    (find_longest_match input pos).1 ≤ pos ∧
    (find_longest_match input pos).1 ≤ 4095 ∧
    (find_longest_match input pos).2 ≤ 255 ∧
    pos + (find_longest_match input pos).2 ≤ input.length ∧
    ∀ t, t < (find_longest_match input pos).2 →
      input.getD (pos - (find_longest_match input pos).1 + t) 0 =
        input.getD (pos + t) 0 := by
  obtain ⟨hcap, hbest, -⟩ := find_longest_match_spec input pos
  obtain ⟨j0, hj0, hw, hd, hlen, -⟩ := hbest h
  have hb : pos - (find_longest_match input pos).1 = j0 := by omega
  refine ⟨by omega, by omega, by omega, hcap, ?_, ?_⟩
  · rcases matchLenFrom_inbound input j0 pos with h0 | h0
    · omega
    · omega
  · intro t ht
    rw [hb]
    exact matchLenFrom_agree input j0 pos t (by omega)

/-! ## Decoder lemmas -/

theorem getD_take {l : Bytes} {n m : Nat} (h : m < n) : (l.take n).getD m 0 = l.getD m 0 := by
  simp [List.getD_eq_getElem?_getD, List.getElem?_take, h]

theorem take_succ_getD {l : Bytes} {i : Nat} (h : i < l.length) :
    l.take (i + 1) = l.take i ++ [l.getD i 0] := by
  rw [List.take_succ]
  simp [List.getElem?_eq_getElem h, List.getD_eq_getElem?_getD]

theorem copyLoop_length (dist : Nat) : ∀ n out, (copyLoop out dist n).length = out.length + n := by
  intro n
  induction n with
  | zero => intro out; simp [copyLoop]
  | succ m ih => intro out; rw [copyLoop, ih]; simp; omega

/-- Running `decLoop` with any sufficient fuel agrees with running it with
fuel `input.length` (each chunk consumes at least one input byte). -/
theorem decLoop_fuel (n : Nat) : ∀ (input out : Bytes) (fuel : Nat),
    input.length ≤ n → input.length ≤ fuel →
    decLoop fuel input out = decLoop input.length input out := by
  induction n with
  | zero =>
      intro input out fuel h1 _
      have hnil : input = [] := List.length_eq_zero.mp (by omega)
      subst hnil
      simp [decLoop]
  | succ n ih =>
      intro input out fuel h1 h2
      rcases input with _ | ⟨tag, rest⟩
      · simp [decLoop]
      · obtain ⟨f, rfl⟩ : ∃ f, fuel = f + 1 := ⟨fuel - 1, by simp at h2; omega⟩
        simp only [List.length_cons] at h1 h2 ⊢
        rcases tag with _ | _ | t
        · rcases rest with _ | ⟨len, rest2⟩
          · simp [decLoop]
          · simp only [List.length_cons] at h1 h2 ⊢
            simp only [decLoop]
            by_cases hc : len = 0 ∨ rest2.length < len
            · simp only [if_pos hc]
            · simp only [if_neg hc]
              rw [ih (rest2.drop len) (out ++ rest2.take len) f (by simp; omega)
                  (by simp; omega),
                ih (rest2.drop len) (out ++ rest2.take len) (rest2.length + 1)
                  (by simp; omega) (by simp; omega)]
        · rcases rest with _ | ⟨d1, _ | ⟨d2, _ | ⟨len, rest3⟩⟩⟩
          · simp [decLoop]
          · simp [decLoop]
          · simp [decLoop]
          · simp only [List.length_cons] at h1 h2 ⊢
            simp only [decLoop]
            by_cases hc : d1 * 256 + d2 = 0 ∨ len = 0 ∨ out.length < d1 * 256 + d2
            · simp only [if_pos hc]
            · simp only [if_neg hc]
              rw [ih rest3 (copyLoop out (d1 * 256 + d2) len) f (by omega) (by omega),
                ih rest3 (copyLoop out (d1 * 256 + d2) len) (rest3.length + 1 + 1 + 1)
                  (by omega) (by omega)]
        · simp [decLoop]

/-- Decoding one literal chunk: append the literal bytes and continue. -/
theorem decLoop_lit (fuel : Nat) (bs rest out : Bytes) (h1 : bs ≠ []) (h2 : bs.length ≤ 255) :
    decLoop (fuel + 1) (0 :: bs.length % 256 :: (bs ++ rest)) out =
      decLoop fuel rest (out ++ bs) := by
  have hm : bs.length % 256 = bs.length := Nat.mod_eq_of_lt (by omega)
  rw [decLoop, hm]
  have hne : ¬(bs.length = 0 ∨ (bs ++ rest).length < bs.length) := by
    simp only [List.length_append]
    have : bs.length ≠ 0 := fun h => h1 (List.length_eq_zero.mp h)
    omega
  simp only [if_neg hne, List.take_left, List.drop_left]

/-- Decoding one back-reference chunk as the encoder serializes it:
copy `l` bytes from distance `d` and continue. -/
theorem decLoop_ref (fuel : Nat) (d l : Nat) (rest out : Bytes)
    (hd1 : 1 ≤ d) (hd2 : d ≤ 4095) (hl1 : 1 ≤ l) (hl2 : l ≤ 255) (hdo : d ≤ out.length) :
    decLoop (fuel + 1) (1 :: be16 d ++ l % 256 :: rest) out =
      decLoop fuel rest (copyLoop out d l) := by
  have hml : l % 256 = l := Nat.mod_eq_of_lt (by omega)
  have hm16 : d % 65536 = d := Nat.mod_eq_of_lt (by omega)
  show decLoop (fuel + 1) (1 :: d % 65536 / 256 :: d % 256 :: l % 256 :: rest) out = _
  rw [decLoop, hml]
  have hdist : d % 65536 / 256 * 256 + d % 256 = d := by omega
  rw [hdist]
  have hne : ¬(d = 0 ∨ l = 0 ∨ out.length < d) := by omega
  simp only [if_neg hne]

/-- Copying `l` bytes from distance `d` out of a decoded prefix of the
input extends the prefix, provided the source bytes repeat as
`find_longest_match` found them (the overlap-copy reads the growing
output). -/
theorem copyLoop_take (input : Bytes) (d : Nat) : ∀ l i, 1 ≤ d → d ≤ i →
    i + l ≤ input.length →
    (∀ t, t < l → input.getD (i - d + t) 0 = input.getD (i + t) 0) →
    copyLoop (input.take i) d l = input.take (i + l) := by
  intro l
  induction l with
  | zero => intro i _ _ _ _; simp [copyLoop]
  | succ m ih =>
      intro i hd1 hd2 hlen hagree
      rw [copyLoop]
      have hi : i < input.length := by omega
      have hti : (input.take i).length = i := List.length_take_of_le (by omega)
      have hgd : (input.take i).getD ((input.take i).length - d) 0 = input.getD i 0 := by
        rw [hti, getD_take (by omega)]
        have h0 := hagree 0 (by omega)
        simpa using h0
      rw [hgd, ← take_succ_getD hi]
      have := ih (i + 1) hd1 (by omega) (by omega) ?_
      · rw [this]; congr 1; omega
      · intro t ht
        have h := hagree (t + 1) (by omega)
        have harith : i + 1 - d + t = i - d + (t + 1) := by omega
        have harith2 : i + 1 + t = i + (t + 1) := by omega
        rw [harith, harith2]
        exact h

/-! ## Encoder correctness: the round-trip -/

/-- Decoding the final literal flush of the encoder. -/
theorem encFlush_correct (input lits rest out : Bytes) (hlt : lits.length < 255)
    (hout : out ++ lits = input) :
    ∀ dfuel, ((if lits.isEmpty then [] else emit_literals lits) ++ rest).length ≤ dfuel →
      decLoop dfuel ((if lits.isEmpty then [] else emit_literals lits) ++ rest) out =
        decLoop rest.length rest input := by
  intro dfuel hd
  by_cases he : lits.isEmpty = true
  · have hnil : lits = [] := List.isEmpty_iff.mp he
    subst hnil
    simp only [List.append_nil] at hout
    subst hout
    simp only [if_pos he, List.nil_append] at hd ⊢
    exact decLoop_fuel rest.length rest out dfuel le_rfl hd
  · have hne : lits ≠ [] := fun h => he (by simp [h])
    simp only [if_neg he] at hd ⊢
    have hshape : emit_literals lits ++ rest = 0 :: lits.length % 256 :: (lits ++ rest) := by
      simp [emit_literals]
    rw [hshape] at hd ⊢
    obtain ⟨d', rfl⟩ : ∃ d', dfuel = d' + 1 := ⟨dfuel - 1, by simp at hd; omega⟩
    rw [decLoop_lit d' lits rest out hne (by omega)]
    rw [decLoop_fuel rest.length rest (out ++ lits) d' le_rfl (by simp at hd; omega), hout]

/-- Main encoder-correctness invariant: from position `i` with pending
literal buffer `lits` (the bytes `input[i - lits.length .. i]`, already
aligned with the decoded prefix `out`), decoding the remaining encoder
output followed by `rest` extends `out` to the whole input and continues
with `rest`. -/
theorem encLoop_correct (input : Bytes) : ∀ (fuel i : Nat) (lits rest out : Bytes),
    input.length ≤ i + fuel → i ≤ input.length → lits.length < 255 →
    out ++ lits = input.take i →
    ∀ dfuel, (encLoop input fuel i lits ++ rest).length ≤ dfuel →
      decLoop dfuel (encLoop input fuel i lits ++ rest) out =
        decLoop rest.length rest input := by
  intro fuel
  induction fuel with
  | zero =>
      intro i lits rest out h1 h2 h3 h4 dfuel hd
      have hi : i = input.length := by omega
      subst hi
      rw [List.take_length] at h4
      rw [encLoop] at hd ⊢
      exact encFlush_correct input lits rest out h3 h4 dfuel hd
  | succ f ih =>
      intro i lits rest out h1 h2 h3 h4 dfuel hd
      by_cases hi : i < input.length
      · by_cases h3l : 3 ≤ (find_longest_match input i).2
        · -- back-reference branch
          obtain ⟨hd1, hdle, hd4095, hcap, hinb, hagree⟩ :=
            find_longest_match_pos input i (by omega)
          have hexp : encLoop input (f + 1) i lits =
              (if lits.isEmpty then [] else emit_literals lits) ++
                1 :: be16 (find_longest_match input i).1 ++
                  (find_longest_match input i).2 % 256 ::
                    encLoop input f (i + (find_longest_match input i).2) [] := by
            rw [encLoop, if_pos hi, if_pos h3l]
          rw [hexp] at hd ⊢
          have houtlen : (out ++ lits).length = i := by
            rw [h4]; exact List.length_take_of_le (by omega)
          -- the reference-chunk step, shared by the two flush sub-cases
          have hstep : ∀ (out' : Bytes) (df : Nat), out' = input.take i →
              (1 :: be16 (find_longest_match input i).1 ++
                (find_longest_match input i).2 % 256 ::
                  (encLoop input f (i + (find_longest_match input i).2) [] ++ rest)).length ≤ df →
              decLoop df
                  (1 :: be16 (find_longest_match input i).1 ++
                    (find_longest_match input i).2 % 256 ::
                      (encLoop input f (i + (find_longest_match input i).2) [] ++ rest)) out' =
                decLoop rest.length rest input := by
            intro out' df hout' hdf
            obtain ⟨d', rfl⟩ : ∃ d', df = d' + 1 := ⟨df - 1, by simp at hdf; omega⟩
            have hol : out'.length = i := by
              rw [hout']; exact List.length_take_of_le (by omega)
            rw [decLoop_ref d' (find_longest_match input i).1 (find_longest_match input i).2
              (encLoop input f (i + (find_longest_match input i).2) [] ++ rest) out'
              hd1 hd4095 (by omega) hcap (by omega)]
            rw [hout', copyLoop_take input (find_longest_match input i).1
              (find_longest_match input i).2 i hd1 hdle hinb hagree]
            exact ih (i + (find_longest_match input i).2) [] rest
              (input.take (i + (find_longest_match input i).2)) (by omega) (by omega)
              (by simp) (by simp) d' (by simp at hdf ⊢; omega)
          by_cases he : lits.isEmpty = true
          · have hnil : lits = [] := List.isEmpty_iff.mp he
            subst hnil
            simp only [List.append_nil] at h4
            simp only [if_pos he, List.nil_append, List.cons_append, List.append_assoc] at hd ⊢
            exact hstep out dfuel h4 (by simpa using hd)
          · have hne : lits ≠ [] := fun h => he (by simp [h])
            simp only [if_neg he, emit_literals, List.cons_append, List.append_assoc] at hd ⊢
            obtain ⟨d', rfl⟩ : ∃ d', dfuel = d' + 1 := ⟨dfuel - 1, by simp at hd; omega⟩
            rw [decLoop_lit d' lits _ out hne (by omega)]
            exact hstep (out ++ lits) d' h4 (by simp at hd ⊢; omega)
        · -- literal branch
          have hexp : encLoop input (f + 1) i lits =
              (let lits' := lits ++ [input.getD i 0]
               if lits'.length = 255 then emit_literals lits' ++ encLoop input f (i + 1) []
               else encLoop input f (i + 1) lits') := by
            rw [encLoop, if_pos hi, if_neg h3l]
          have hout' : out ++ (lits ++ [input.getD i 0]) = input.take (i + 1) := by
            rw [← List.append_assoc, h4, take_succ_getD hi]
          rw [hexp] at hd ⊢
          simp only at hd ⊢
          by_cases h255 : (lits ++ [input.getD i 0]).length = 255
          · simp only [if_pos h255] at hd ⊢
            simp only [emit_literals, List.cons_append, List.append_assoc] at hd ⊢
            obtain ⟨d', rfl⟩ : ∃ d', dfuel = d' + 1 := ⟨dfuel - 1, by simp at hd; omega⟩
            have hlit := decLoop_lit d' (lits ++ [input.getD i 0])
              (encLoop input f (i + 1) [] ++ rest) out (by simp) (by omega)
            simp only [List.cons_append, List.nil_append, List.append_assoc] at hlit ⊢
            rw [hlit, hout']
            exact ih (i + 1) [] rest (input.take (i + 1)) (by omega) (by omega) (by simp)
              (by simp) d' (by simp at hd ⊢; omega)
          · simp only [if_neg h255] at hd ⊢
            exact ih (i + 1) (lits ++ [input.getD i 0]) rest out (by omega) (by omega)
              (by simp at h255 ⊢; omega) hout' dfuel hd
      · have hexp : encLoop input (f + 1) i lits =
            if lits.isEmpty then [] else emit_literals lits := by
          rw [encLoop, if_neg hi]
        have hi' : i = input.length := by omega
        subst hi'
        rw [List.take_length] at h4
        rw [hexp] at hd ⊢
        exact encFlush_correct input lits rest out h3 h4 dfuel hd

/-- The codec round-trip for arbitrary byte sequences. -/
theorem lz77_roundtrip (x : Bytes) : lz77_decode (lz77_encode x) = some x := by
  by_cases hx : x.isEmpty = true
  · have : x = [] := List.isEmpty_iff.mp hx
    subst this
    decide
  · have hcore : decLoop (encLoop x x.length 0 [] ++ []).length
        (encLoop x x.length 0 [] ++ []) [] = decLoop ([] : Bytes).length [] x :=
      encLoop_correct x x.length 0 [] [] [] (by omega) (by omega) (by simp) (by simp)
        _ le_rfl
    simp only [List.append_nil, List.length_nil] at hcore
    have hx' : decLoop (encLoop x x.length 0 []).length (encLoop x x.length 0 []) [] =
        some x := by
      rw [hcore]; rfl
    rw [lz77_encode, if_neg hx, lz77_decode]
    by_cases he : (encLoop x x.length 0 []).isEmpty = true
    · have hnil : encLoop x x.length 0 [] = [] := List.isEmpty_iff.mp he
      rw [hnil] at hx'
      simp only [if_pos he]
      simpa [decLoop] using hx'
    · rw [if_neg he]
      exact hx'

/-! ## Record-codec lemmas -/

theorem to_bytes_payload (t : EntryType) (k v : Bytes) :
    (DataEntry.mk t k v).to_bytes =
      payloadBytes t k v ++ be32 (checksumFold (payloadBytes t k v)) := by
  cases t <;> rfl

theorem payload_length (t : EntryType) (k v : Bytes) :
    (payloadBytes t k v).length = 9 + k.length + (lz77_encode v).length := by
  simp [payloadBytes]
  omega

theorem to_bytes_length (t : EntryType) (k v : Bytes) :
    (DataEntry.mk t k v).to_bytes.length = 13 + k.length + (lz77_encode v).length := by
  rw [to_bytes_payload]
  simp [payload_length]
  omega

theorem to_bytes_cons (t : EntryType) (k v : Bytes) :
    (DataEntry.mk t k v).to_bytes =
      typeByte t ::
        k.length % 2 ^ 32 / 2 ^ 24 :: k.length % 2 ^ 24 / 2 ^ 16 ::
        k.length % 2 ^ 16 / 2 ^ 8 :: k.length % 256 ::
        (lz77_encode v).length % 2 ^ 32 / 2 ^ 24 :: (lz77_encode v).length % 2 ^ 24 / 2 ^ 16 ::
        (lz77_encode v).length % 2 ^ 16 / 2 ^ 8 :: (lz77_encode v).length % 256 ::
        (k ++ (lz77_encode v ++ be32 (checksumFold (payloadBytes t k v)))) := by
  rw [to_bytes_payload]
  simp [payloadBytes, be32, List.cons_append, List.append_assoc]

/-- Decoding the frame a record serializes to, queried with its own key:
a Tombstone reads back as absent, a Data frame as its value (spec P2). -/
theorem decode_buffer_to_bytes (t : EntryType) (k v : Bytes)
    (hk : k.length < 2 ^ 32) (hv : (lz77_encode v).length < 2 ^ 32) :
    decode_buffer ((DataEntry.mk t k v).to_bytes) k =
      .ok (match t with | .Tombstone => none | .Data => some v) := by
  have hlen := to_bytes_length t k v
  have hbuf9 : ¬ ((DataEntry.mk t k v).to_bytes.length < 9) := by omega
  cases t with
  | Tombstone =>
      have hhead : (DataEntry.mk EntryType.Tombstone k v).to_bytes.getD 0 0 = 1 := by
        rw [to_bytes_cons]; rfl
      simp only [decode_buffer, if_neg hbuf9, hhead]
      simp
  | Data =>
      have hhead : (DataEntry.mk EntryType.Data k v).to_bytes.getD 0 0 = 0 := by
        rw [to_bytes_cons]; rfl
      have hkeylen : bufKeyLen (DataEntry.mk EntryType.Data k v).to_bytes = k.length := by
        have h1 : bufKeyLen (DataEntry.mk EntryType.Data k v).to_bytes =
            fromBe32 (k.length % 2 ^ 32 / 2 ^ 24) (k.length % 2 ^ 24 / 2 ^ 16)
              (k.length % 2 ^ 16 / 2 ^ 8) (k.length % 256) := by
          rw [to_bytes_cons]; rfl
        rw [h1, fromBe32_be32, Nat.mod_eq_of_lt hk]
      have hvallen : bufValLen (DataEntry.mk EntryType.Data k v).to_bytes =
          (lz77_encode v).length := by
        have h1 : bufValLen (DataEntry.mk EntryType.Data k v).to_bytes =
            fromBe32 ((lz77_encode v).length % 2 ^ 32 / 2 ^ 24)
              ((lz77_encode v).length % 2 ^ 24 / 2 ^ 16)
              ((lz77_encode v).length % 2 ^ 16 / 2 ^ 8) ((lz77_encode v).length % 256) := by
          rw [to_bytes_cons]; rfl
        rw [h1, fromBe32_be32, Nat.mod_eq_of_lt hv]
      have hdrop9 : (DataEntry.mk EntryType.Data k v).to_bytes.drop 9 =
          k ++ (lz77_encode v ++ be32 (checksumFold (payloadBytes EntryType.Data k v))) := by
        rw [to_bytes_cons]; rfl
      have hkey : ((DataEntry.mk EntryType.Data k v).to_bytes.drop 9).take k.length = k := by
        rw [hdrop9]; exact List.take_left k _
      have htot : ¬ ((DataEntry.mk EntryType.Data k v).to_bytes.length <
          9 + k.length + (lz77_encode v).length + 4) := by omega
      have htake : (DataEntry.mk EntryType.Data k v).to_bytes.take
          (9 + k.length + (lz77_encode v).length) = payloadBytes EntryType.Data k v := by
        rw [to_bytes_payload]
        exact List.take_left' (payload_length EntryType.Data k v)
      have hgd : ∀ i : Nat, i < 4 →
          (DataEntry.mk EntryType.Data k v).to_bytes.getD
            (9 + k.length + (lz77_encode v).length + i) 0 =
          (be32 (checksumFold (payloadBytes EntryType.Data k v))).getD i 0 := by
        intro i hi
        rw [to_bytes_payload,
          List.getD_append_right _ _ _ _ (by rw [payload_length]; omega)]
        congr 1
        rw [payload_length]
        omega
      have hstored : fromBe32
          ((DataEntry.mk EntryType.Data k v).to_bytes.getD
            (9 + k.length + (lz77_encode v).length) 0)
          ((DataEntry.mk EntryType.Data k v).to_bytes.getD
            (9 + k.length + (lz77_encode v).length + 1) 0)
          ((DataEntry.mk EntryType.Data k v).to_bytes.getD
            (9 + k.length + (lz77_encode v).length + 2) 0)
          ((DataEntry.mk EntryType.Data k v).to_bytes.getD
            (9 + k.length + (lz77_encode v).length + 3) 0) =
          checksumFold (payloadBytes EntryType.Data k v) := by
        have h0 := hgd 0 (by omega)
        have h1 := hgd 1 (by omega)
        have h2 := hgd 2 (by omega)
        have h3 := hgd 3 (by omega)
        simp only [Nat.add_zero] at h0
        rw [h0, h1, h2, h3]
        show fromBe32 (checksumFold (payloadBytes EntryType.Data k v) % 2 ^ 32 / 2 ^ 24)
          (checksumFold (payloadBytes EntryType.Data k v) % 2 ^ 24 / 2 ^ 16)
          (checksumFold (payloadBytes EntryType.Data k v) % 2 ^ 16 / 2 ^ 8)
          (checksumFold (payloadBytes EntryType.Data k v) % 256) = _
        rw [fromBe32_be32]
        exact Nat.mod_eq_of_lt (checksumFold_lt _)
      have hslice : ((DataEntry.mk EntryType.Data k v).to_bytes.drop (9 + k.length)).take
          (lz77_encode v).length = lz77_encode v := by
        have hdd : (DataEntry.mk EntryType.Data k v).to_bytes.drop (9 + k.length) =
            ((DataEntry.mk EntryType.Data k v).to_bytes.drop 9).drop k.length := by
          rw [List.drop_drop]
        rw [hdd, hdrop9, List.drop_left]
        exact List.take_left _ _
      simp only [decode_buffer, if_neg hbuf9, hhead, hkeylen, hvallen]
      rw [if_neg (by omega : ¬ (0 = 1))]
      rw [if_neg htot]
      rw [if_neg (by rw [hkey]; simp)]
      rw [if_neg (by rw [htake, hstored]; simp)]
      rw [hslice, lz77_roundtrip v]

/-! ## Byte bounds and single-byte mutation -/

theorem getD_mem (l : Bytes) (n : Nat) (h : n < l.length) : l.getD n 0 ∈ l := by
  rw [List.getD_eq_getElem?_getD, List.getElem?_eq_getElem h]
  exact List.getElem_mem h

theorem emit_literals_lt (lits : Bytes) (h : ∀ b ∈ lits, b < 256) :
    ∀ b ∈ emit_literals lits, b < 256 := by
  intro b hb
  simp only [emit_literals, List.mem_cons] at hb
  rcases hb with rfl | rfl | hb
  · omega
  · exact Nat.mod_lt _ (by omega)
  · exact h b hb

theorem encLoop_lt (input : Bytes) (hin : ∀ b ∈ input, b < 256) :
    ∀ fuel i lits, (∀ b ∈ lits, b < 256) → ∀ b ∈ encLoop input fuel i lits, b < 256 := by
  intro fuel
  induction fuel with
  | zero =>
      intro i lits hl b hb
      rw [encLoop] at hb
      split at hb
      · simp at hb
      · exact emit_literals_lt lits hl b hb
  | succ f ih =>
      intro i lits hl b hb
      rw [encLoop] at hb
      by_cases hi : i < input.length
      · rw [if_pos hi] at hb
        simp only at hb
        by_cases h3l : 3 ≤ (find_longest_match input i).2
        · rw [if_pos h3l] at hb
          rcases List.mem_append.mp hb with hb | hb
          · rcases List.mem_append.mp hb with hb | hb
            · split at hb
              · simp at hb
              · exact emit_literals_lt lits hl b hb
            · rcases List.mem_cons.mp hb with rfl | hb
              · omega
              · exact be16_lt _ b hb
          · simp only [List.mem_cons] at hb
            rcases hb with h2 | h2
            · rw [h2]; exact Nat.mod_lt _ (by omega)
            · exact ih (i + (find_longest_match input i).2) [] (by simp) b h2
        · rw [if_neg h3l] at hb
          have hl' : ∀ b ∈ lits ++ [input.getD i 0], b < 256 := by
            intro b hb
            rcases List.mem_append.mp hb with hb | hb
            · exact hl b hb
            · simp only [List.mem_singleton] at hb
              subst hb
              exact hin _ (getD_mem input i hi)
          by_cases h255 : (lits ++ [input.getD i 0]).length = 255
          · rw [if_pos h255] at hb
            rcases List.mem_append.mp hb with hb | hb
            · exact emit_literals_lt _ hl' b hb
            · exact ih (i + 1) [] (by simp) b hb
          · rw [if_neg h255] at hb
            exact ih (i + 1) (lits ++ [input.getD i 0]) hl' b hb
      · rw [if_neg hi] at hb
        split at hb
        · simp at hb
        · exact emit_literals_lt lits hl b hb

theorem lz77_encode_lt (v : Bytes) (hv : ∀ b ∈ v, b < 256) :
    ∀ b ∈ lz77_encode v, b < 256 := by
  intro b hb
  rw [lz77_encode] at hb
  split at hb
  · simp at hb
  · exact encLoop_lt v hv v.length 0 [] (by simp) b hb

theorem typeByte_lt (t : EntryType) : typeByte t < 256 := by cases t <;> decide

theorem payloadBytes_lt (t : EntryType) (k v : Bytes) (hk : ∀ b ∈ k, b < 256)
    (hv : ∀ b ∈ v, b < 256) : ∀ b ∈ payloadBytes t k v, b < 256 := by
  intro b hb
  simp only [payloadBytes, List.mem_cons, List.mem_append] at hb
  rcases hb with rfl | ⟨⟨⟨hb | hb⟩ | hb⟩ | hb⟩
  · exact typeByte_lt t
  · exact be32_lt _ b hb
  · exact be32_lt _ b hb
  · exact hk b hb
  · exact lz77_encode_lt v hv b hb

theorem sum_set (b : Nat) : ∀ (l : Bytes) (i : Nat), i < l.length →
    (l.set i b).sum + l.getD i 0 = l.sum + b := by
  intro l
  induction l with
  | nil => intro i h; simp at h
  | cons x xs ih =>
      intro i h
      cases i with
      | zero => simp [List.getD_cons_zero]; omega
      | succ n =>
          simp only [List.set_cons_succ, List.sum_cons, List.getD_cons_succ]
          have := ih n (by simpa using h)
          omega

/-! ## Log-iterator lemmas -/

theorem frameBytes_length (f : Frame) :
    (frameBytes f).length = 13 + f.key.length + (lz77_encode f.value).length :=
  to_bytes_length f.typ f.key f.value

theorem frameBytes_append_cons (f : Frame) (rest : Bytes) :
    frameBytes f ++ rest =
      typeByte f.typ ::
        f.key.length % 2 ^ 32 / 2 ^ 24 :: f.key.length % 2 ^ 24 / 2 ^ 16 ::
        f.key.length % 2 ^ 16 / 2 ^ 8 :: f.key.length % 256 ::
        (lz77_encode f.value).length % 2 ^ 32 / 2 ^ 24 ::
        (lz77_encode f.value).length % 2 ^ 24 / 2 ^ 16 ::
        (lz77_encode f.value).length % 2 ^ 16 / 2 ^ 8 :: (lz77_encode f.value).length % 256 ::
        (f.key ++ (lz77_encode f.value ++
          (be32 (checksumFold (payloadBytes f.typ f.key f.value)) ++ rest))) := by
  show (DataEntry.mk f.typ f.key f.value).to_bytes ++ rest = _
  rw [to_bytes_cons]
  simp [List.cons_append, List.append_assoc]

theorem frameBytes_keyLen (f : Frame) (rest : Bytes) (hf : GoodFrame f) :
    bufKeyLen (frameBytes f ++ rest) = f.key.length := by
  have h1 : bufKeyLen (frameBytes f ++ rest) =
      fromBe32 (f.key.length % 2 ^ 32 / 2 ^ 24) (f.key.length % 2 ^ 24 / 2 ^ 16)
        (f.key.length % 2 ^ 16 / 2 ^ 8) (f.key.length % 256) := by
    rw [frameBytes_append_cons]; rfl
  rw [h1, fromBe32_be32, Nat.mod_eq_of_lt hf.1]

theorem frameBytes_valLen (f : Frame) (rest : Bytes) (hf : GoodFrame f) :
    bufValLen (frameBytes f ++ rest) = (lz77_encode f.value).length := by
  have h1 : bufValLen (frameBytes f ++ rest) =
      fromBe32 ((lz77_encode f.value).length % 2 ^ 32 / 2 ^ 24)
        ((lz77_encode f.value).length % 2 ^ 24 / 2 ^ 16)
        ((lz77_encode f.value).length % 2 ^ 16 / 2 ^ 8)
        ((lz77_encode f.value).length % 256) := by
    rw [frameBytes_append_cons]; rfl
  rw [h1, fromBe32_be32, Nat.mod_eq_of_lt hf.2]

theorem frameBytes_getD0 (f : Frame) (rest : Bytes) :
    (frameBytes f ++ rest).getD 0 0 = typeByte f.typ := by
  rw [frameBytes_append_cons]; rfl

/-- One `LogIter::next` over a well-formed frame followed by more bytes:
it parses exactly the frame, reports a valid checksum, and continues with
the remainder. -/
theorem logIterLoop_step (f : Frame) (hf : GoodFrame f) (rest : Bytes) (fuel off : Nat) :
    logIterLoop (fuel + 1) (frameBytes f ++ rest) off =
      ((recordOf f off) :: (logIterLoop fuel rest (off + (frameBytes f).length)).1,
        (logIterLoop fuel rest (off + (frameBytes f).length)).2) := by
  have hK := hf.1
  have hV := hf.2
  have hfl := frameBytes_length f
  have hlen0 : (frameBytes f ++ rest).length = (frameBytes f).length + rest.length :=
    List.length_append _ _
  have hlen : (frameBytes f ++ rest).length =
      13 + f.key.length + (lz77_encode f.value).length + rest.length := by omega
  have h9 : ¬ ((frameBytes f ++ rest).length < 9) := by omega
  have htag : ¬ ((frameBytes f ++ rest).getD 0 0 ≠ 0 ∧ (frameBytes f ++ rest).getD 0 0 ≠ 1) := by
    rw [frameBytes_getD0]
    cases f.typ <;> simp [typeByte]
  have htyp : (if (frameBytes f ++ rest).getD 0 0 = 1 then EntryType.Tombstone
      else EntryType.Data) = f.typ := by
    rw [frameBytes_getD0]
    cases f.typ <;> simp [typeByte]
  have hkl := frameBytes_keyLen f rest hf
  have hvl := frameBytes_valLen f rest hf
  have hbody : ¬ ((frameBytes f ++ rest).length - 9 <
      f.key.length + (lz77_encode f.value).length + 4) := by omega
  have hdrop9 : (frameBytes f ++ rest).drop 9 =
      f.key ++ (lz77_encode f.value ++
        (be32 (checksumFold (payloadBytes f.typ f.key f.value)) ++ rest)) := by
    rw [frameBytes_append_cons]; rfl
  have hassoc : f.key ++ (lz77_encode f.value ++
      (be32 (checksumFold (payloadBytes f.typ f.key f.value)) ++ rest)) =
      (f.key ++ (lz77_encode f.value ++
        be32 (checksumFold (payloadBytes f.typ f.key f.value)))) ++ rest := by
    simp [List.append_assoc]
  have htail_len : (f.key ++ (lz77_encode f.value ++
      be32 (checksumFold (payloadBytes f.typ f.key f.value)))).length =
      f.key.length + (lz77_encode f.value).length + 4 := by
    simp; omega
  have hbody_eq : ((frameBytes f ++ rest).drop 9).take
      (f.key.length + (lz77_encode f.value).length + 4) =
      f.key ++ (lz77_encode f.value ++
        be32 (checksumFold (payloadBytes f.typ f.key f.value))) := by
    rw [hdrop9, hassoc]
    exact List.take_left' htail_len
  have hbody2 : f.key ++ (lz77_encode f.value ++
      be32 (checksumFold (payloadBytes f.typ f.key f.value))) =
      (f.key ++ lz77_encode f.value) ++
        be32 (checksumFold (payloadBytes f.typ f.key f.value)) := by
    simp [List.append_assoc]
  have hgd : ∀ i : Nat, i < 4 →
      (f.key ++ (lz77_encode f.value ++
        be32 (checksumFold (payloadBytes f.typ f.key f.value)))).getD
          (f.key.length + (lz77_encode f.value).length + i) 0 =
      (be32 (checksumFold (payloadBytes f.typ f.key f.value))).getD i 0 := by
    intro i hi
    rw [hbody2, List.getD_append_right _ _ _ _ (by simp)]
    congr 1
    simp
  have hstored : fromBe32
      ((f.key ++ (lz77_encode f.value ++
        be32 (checksumFold (payloadBytes f.typ f.key f.value)))).getD
          (f.key.length + (lz77_encode f.value).length) 0)
      ((f.key ++ (lz77_encode f.value ++
        be32 (checksumFold (payloadBytes f.typ f.key f.value)))).getD
          (f.key.length + (lz77_encode f.value).length + 1) 0)
      ((f.key ++ (lz77_encode f.value ++
        be32 (checksumFold (payloadBytes f.typ f.key f.value)))).getD
          (f.key.length + (lz77_encode f.value).length + 2) 0)
      ((f.key ++ (lz77_encode f.value ++
        be32 (checksumFold (payloadBytes f.typ f.key f.value)))).getD
          (f.key.length + (lz77_encode f.value).length + 3) 0) =
      checksumFold (payloadBytes f.typ f.key f.value) := by
    have h0 := hgd 0 (by omega)
    have h1 := hgd 1 (by omega)
    have h2 := hgd 2 (by omega)
    have h3 := hgd 3 (by omega)
    simp only [Nat.add_zero] at h0
    rw [h0, h1, h2, h3]
    show fromBe32 (checksumFold (payloadBytes f.typ f.key f.value) % 2 ^ 32 / 2 ^ 24)
      (checksumFold (payloadBytes f.typ f.key f.value) % 2 ^ 24 / 2 ^ 16)
      (checksumFold (payloadBytes f.typ f.key f.value) % 2 ^ 16 / 2 ^ 8)
      (checksumFold (payloadBytes f.typ f.key f.value) % 256) = _
    rw [fromBe32_be32]
    exact Nat.mod_eq_of_lt (checksumFold_lt _)
  have htake9 : (frameBytes f ++ rest).take 9 =
      typeByte f.typ ::
        (f.key.length % 2 ^ 32 / 2 ^ 24 :: f.key.length % 2 ^ 24 / 2 ^ 16 ::
          f.key.length % 2 ^ 16 / 2 ^ 8 :: f.key.length % 256 ::
          (lz77_encode f.value).length % 2 ^ 32 / 2 ^ 24 ::
          (lz77_encode f.value).length % 2 ^ 24 / 2 ^ 16 ::
          (lz77_encode f.value).length % 2 ^ 16 / 2 ^ 8 ::
          [(lz77_encode f.value).length % 256]) := by
    rw [frameBytes_append_cons]; rfl
  have hbodytake : (f.key ++ (lz77_encode f.value ++
      be32 (checksumFold (payloadBytes f.typ f.key f.value)))).take
        (f.key.length + (lz77_encode f.value).length) =
      f.key ++ lz77_encode f.value := by
    rw [hbody2]
    exact List.take_left' (by simp)
  have hsum : checksumFold ((frameBytes f ++ rest).take 9 ++
      (f.key ++ (lz77_encode f.value ++
        be32 (checksumFold (payloadBytes f.typ f.key f.value)))).take
          (f.key.length + (lz77_encode f.value).length)) =
      checksumFold (payloadBytes f.typ f.key f.value) := by
    rw [htake9, hbodytake]
    rfl
  have hkeytake : (f.key ++ (lz77_encode f.value ++
      be32 (checksumFold (payloadBytes f.typ f.key f.value)))).take f.key.length = f.key :=
    List.take_left _ _
  have hdroprest : (frameBytes f ++ rest).drop
      (9 + (f.key.length + (lz77_encode f.value).length + 4)) = rest :=
    List.drop_left' (by omega)
  rw [logIterLoop, if_neg h9, if_neg htag, hkl, hvl, if_neg hbody, hbody_eq]
  simp only []
  rw [hstored, hsum, hkeytake, htyp, hdroprest]
  have hrec : decide (checksumFold (payloadBytes f.typ f.key f.value) =
      checksumFold (payloadBytes f.typ f.key f.value)) = true := by simp
  rw [hrec]
  rw [show (9 : Nat) + f.key.length + (lz77_encode f.value).length + 4 =
    (frameBytes f).length from by omega]
  rfl

/-- A strict prefix of a frame parses to no record and a normal end
(torn-tail handling in `LogIter::next`). -/
theorem logIterLoop_prefix (f0 : Frame) (hf0 : GoodFrame f0) (p : Bytes)
    (hplen : p.length < (frameBytes f0).length)
    (hpre : p = (frameBytes f0).take p.length) :
    ∀ fuel off, logIterLoop fuel p off = ([], none) := by
  intro fuel off
  cases fuel with
  | zero => rfl
  | succ fuel =>
      by_cases h9 : p.length < 9
      · rw [logIterLoop, if_pos h9]
      · have h9' : 9 ≤ p.length := by omega
        have hgd : ∀ i : Nat, i < 9 → p.getD i 0 = (frameBytes f0).getD i 0 := by
          intro i hi
          rw [hpre]
          exact getD_take (by omega)
        have hgd0 : p.getD 0 0 = typeByte f0.typ := by
          rw [hgd 0 (by omega)]
          have := frameBytes_getD0 f0 []
          simpa using this
        have htag : ¬ (p.getD 0 0 ≠ 0 ∧ p.getD 0 0 ≠ 1) := by
          rw [hgd0]
          cases f0.typ <;> simp [typeByte]
        have hkl : bufKeyLen p = f0.key.length := by
          have : bufKeyLen p = bufKeyLen (frameBytes f0) := by
            unfold bufKeyLen
            rw [hgd 1 (by omega), hgd 2 (by omega), hgd 3 (by omega), hgd 4 (by omega)]
          rw [this]
          have := frameBytes_keyLen f0 [] hf0
          simpa using this
        have hvl : bufValLen p = (lz77_encode f0.value).length := by
          have : bufValLen p = bufValLen (frameBytes f0) := by
            unfold bufValLen
            rw [hgd 5 (by omega), hgd 6 (by omega), hgd 7 (by omega), hgd 8 (by omega)]
          rw [this]
          have := frameBytes_valLen f0 [] hf0
          simpa using this
        have hfl := frameBytes_length f0
        have hbody : p.length - 9 <
            f0.key.length + (lz77_encode f0.value).length + 4 := by omega
        rw [logIterLoop, if_neg (by omega), if_neg htag, hkl, hvl, if_pos hbody]

/-- The iterator over the concatenation of well-formed frames followed by
a torn tail: it yields exactly the frames' records in file order and ends
normally. -/
theorem logIterLoop_frames (tail : Bytes)
    (htail : ∀ fuel off, logIterLoop fuel tail off = ([], none)) :
    ∀ (fs : List Frame), (∀ f ∈ fs, GoodFrame f) →
      ∀ fuel off, (logOf fs ++ tail).length ≤ fuel →
        logIterLoop fuel (logOf fs ++ tail) off = (recordsOf fs off, none) := by
  intro fs
  induction fs with
  | nil =>
      intro _ fuel off hfuel
      simp only [logOf, List.map_nil, List.flatten_nil, List.nil_append]
      rw [htail fuel off]
      rfl
  | cons f fs ih =>
      intro hgood fuel off hfuel
      have hf : GoodFrame f := hgood f (by simp)
      have hlog : logOf (f :: fs) = frameBytes f ++ logOf fs := by
        simp [logOf]
      rw [hlog] at hfuel ⊢
      rw [List.append_assoc] at hfuel ⊢
      obtain ⟨fuel', rfl⟩ : ∃ fuel', fuel = fuel' + 1 := by
        refine ⟨fuel - 1, ?_⟩
        have h13 : 13 ≤ (frameBytes f).length := by
          rw [frameBytes_length]; omega
        simp only [List.length_append] at hfuel
        omega
      rw [logIterLoop_step f hf _ fuel' off]
      rw [ih (fun g hg => hgood g (by simp [hg])) fuel' (off + (frameBytes f).length)
        (by simp only [List.length_append] at hfuel ⊢
            have h13 : 13 ≤ (frameBytes f).length := by rw [frameBytes_length]; omega
            omega)]
      rfl

/-- Recovery over all-valid records builds the index by inserting each
record's `(offset, size)` under its key, in order. -/
theorem recoverFromRecords_ok (fs : List Frame) : ∀ (off : Nat) (idx : List (Bytes × IndexEntry)),
    recoverFromRecords idx (recordsOf fs off) = .ok (indexAux fs off idx) := by
  induction fs with
  | nil => intro off idx; rfl
  | cons f fs ih =>
      intro off idx
      rw [recordsOf, recoverFromRecords]
      have hc : (recordOf f off).checksum_ok = true := rfl
      rw [if_pos hc]
      exact ih (off + (frameBytes f).length) _

/-- Recovery fails with `CorruptedData` as soon as some yielded record has
a failed checksum. -/
theorem recoverFromRecords_corrupt (records : List LogRecord)
    (h : ∃ r ∈ records, r.checksum_ok = false) :
    ∀ idx, recoverFromRecords idx records = .error .CorruptedData := by
  induction records with
  | nil => simp at h
  | cons r rest ih =>
      intro idx
      obtain ⟨r0, hr0, hok⟩ := h
      rcases List.mem_cons.mp hr0 with rfl | hr0
      · rw [recoverFromRecords, if_neg (by rw [hok]; simp)]
      · by_cases hr : r.checksum_ok = true
        · rw [recoverFromRecords, if_pos hr]
          exact ih ⟨r0, hr0, hok⟩ _
        · rw [recoverFromRecords, if_neg hr]

/-! ## Index (association list) lemmas -/

theorem lookupA_insertA_self (m : List (Bytes × IndexEntry)) (k : Bytes) (e : IndexEntry) :
    lookupA (insertA m k e) k = some e := by
  induction m with
  | nil => simp [insertA, lookupA]
  | cons p rest ih =>
      rw [insertA]
      by_cases h : p.1 = k
      · rw [if_pos h, lookupA, if_pos rfl]
      · rw [if_neg h, lookupA, if_neg h]
        exact ih

theorem lookupA_insertA_ne (m : List (Bytes × IndexEntry)) (k k0 : Bytes) (e : IndexEntry)
    (h : k ≠ k0) : lookupA (insertA m k e) k0 = lookupA m k0 := by
  induction m with
  | nil => simp [insertA, lookupA, h]
  | cons p rest ih =>
      rw [insertA]
      by_cases hp : p.1 = k
      · rw [if_pos hp, lookupA, if_neg h, lookupA, hp, if_neg h]
      · rw [if_neg hp, lookupA, lookupA]
        by_cases hp0 : p.1 = k0
        · rw [if_pos hp0, if_pos hp0]
        · rw [if_neg hp0, if_neg hp0]
          exact ih

theorem keys_insertA (m : List (Bytes × IndexEntry)) (k : Bytes) (e : IndexEntry) :
    (insertA m k e).map Prod.fst = if k ∈ m.map Prod.fst then m.map Prod.fst
      else m.map Prod.fst ++ [k] := by
  induction m with
  | nil => simp [insertA]
  | cons p rest ih =>
      rw [insertA]
      by_cases h : p.1 = k
      · rw [if_pos h]
        have : k ∈ (p :: rest).map Prod.fst := by simp [← h]
        rw [if_pos this]
        simp [h]
      · rw [if_neg h]
        have hne : k ≠ p.1 := fun hc => h hc.symm
        by_cases hm : k ∈ rest.map Prod.fst
        · have : k ∈ (p :: rest).map Prod.fst := by simp [hm]
          rw [if_pos this]
          simp [ih, hm]
        · have : ¬ k ∈ (p :: rest).map Prod.fst := by simp [hm, hne]
          rw [if_neg this]
          simp [ih, hm]

theorem nodup_insertA (m : List (Bytes × IndexEntry)) (k : Bytes) (e : IndexEntry)
    (h : (m.map Prod.fst).Nodup) : ((insertA m k e).map Prod.fst).Nodup := by
  rw [keys_insertA]
  by_cases hm : k ∈ m.map Prod.fst
  · rwa [if_pos hm]
  · rw [if_neg hm]
    simp [List.nodup_append, h, hm]

theorem lookupA_mem (m : List (Bytes × IndexEntry)) (k : Bytes) (e : IndexEntry)
    (h : lookupA m k = some e) : (k, e) ∈ m := by
  induction m with
  | nil => simp [lookupA] at h
  | cons p rest ih =>
      rw [lookupA] at h
      by_cases hp : p.1 = k
      · rw [if_pos hp] at h
        injection h with he
        have hpe : p = (k, e) := by
          rw [← hp, ← he]
        exact List.mem_cons.mpr (Or.inl hpe.symm)
      · rw [if_neg hp] at h
        exact List.mem_cons_of_mem _ (ih h)

theorem lookupA_of_mem (m : List (Bytes × IndexEntry)) (k : Bytes) (e : IndexEntry)
    (hnd : (m.map Prod.fst).Nodup) (h : (k, e) ∈ m) : lookupA m k = some e := by
  induction m with
  | nil => simp at h
  | cons p rest ih =>
      rw [lookupA]
      rcases List.mem_cons.mp h with rfl | h
      · rw [if_pos rfl]
      · have hp : p.1 ≠ k := by
          intro hc
          have : k ∈ rest.map Prod.fst := by
            exact List.mem_map.mpr ⟨(k, e), h, rfl⟩
          simp only [List.map_cons, List.nodup_cons] at hnd
          exact hnd.1 (hc ▸ this)
        rw [if_neg hp]
        exact ih (by simp only [List.map_cons, List.nodup_cons] at hnd; exact hnd.2) h

theorem lookupA_none (m : List (Bytes × IndexEntry)) (k : Bytes)
    (h : k ∉ m.map Prod.fst) : lookupA m k = none := by
  induction m with
  | nil => rfl
  | cons p rest ih =>
      rw [lookupA]
      have hp : p.1 ≠ k := by
        intro hc
        exact h (by simp [← hc])
      rw [if_neg hp]
      exact ih (fun hc => h (by simp [hc]))

theorem insertByOffset_perm (p : Bytes × IndexEntry) (l : List (Bytes × IndexEntry)) :
    (MyDatabase.insertByOffset p l).Perm (p :: l) := by
  induction l with
  | nil => simp [MyDatabase.insertByOffset]
  | cons q rest ih =>
      rw [MyDatabase.insertByOffset]
      by_cases h : q.2.offset ≤ p.2.offset
      · rw [if_pos h]
        exact List.Perm.trans (List.Perm.cons q ih) (List.Perm.swap p q rest)
      · rw [if_neg h]

theorem sortByOffset_perm (l : List (Bytes × IndexEntry)) :
    (MyDatabase.sortByOffset l).Perm l := by
  induction l with
  | nil => simp [MyDatabase.sortByOffset]
  | cons p rest ih =>
      rw [MyDatabase.sortByOffset]
      exact List.Perm.trans (insertByOffset_perm _ _) (List.Perm.cons p ih)

/-! ## Recovered-index structure lemmas -/

theorem logOf_append (as bs : List Frame) : logOf (as ++ bs) = logOf as ++ logOf bs := by
  simp [logOf]

theorem logOf_cons (f : Frame) (fs : List Frame) :
    logOf (f :: fs) = frameBytes f ++ logOf fs := by
  simp [logOf]

theorem lookupA_indexAux (fs : List Frame) : ∀ (off : Nat) (acc : List (Bytes × IndexEntry))
    (k : Bytes), lookupA (indexAux fs off acc) k =
      (match replayLookup fs k off with
       | some (o, g) => some ⟨o, (frameBytes g).length % 2 ^ 32⟩
       | none => lookupA acc k) := by
  induction fs with
  | nil => intro off acc k; rfl
  | cons f fs ih =>
      intro off acc k
      rw [indexAux, replayLookup, ih]
      cases hrl : replayLookup fs k (off + (frameBytes f).length) with
      | some r => rfl
      | none =>
          simp only
          by_cases hk : f.key = k
          · rw [if_pos hk, hk, lookupA_insertA_self]
          · rw [if_neg hk, lookupA_insertA_ne _ _ _ _ hk]

theorem indexAux_append (as bs : List Frame) : ∀ (off : Nat) (acc : List (Bytes × IndexEntry)),
    indexAux (as ++ bs) off acc = indexAux bs (off + (logOf as).length) (indexAux as off acc) := by
  induction as with
  | nil => intro off acc; simp [logOf, indexAux]
  | cons f as ih =>
      intro off acc
      simp only [List.cons_append, indexAux, List.append_eq]
      rw [ih, logOf_cons]
      congr 1
      rw [List.length_append]
      omega

theorem replayLookup_append (as bs : List Frame) : ∀ (k : Bytes) (off : Nat),
    replayLookup (as ++ bs) k off =
      (match replayLookup bs k (off + (logOf as).length) with
       | some r => some r
       | none => replayLookup as k off) := by
  induction as with
  | nil =>
      intro k off
      simp only [List.nil_append, logOf, List.map_nil, List.flatten_nil, List.length_nil,
        Nat.add_zero]
      cases replayLookup bs k off <;> rfl
  | cons f as ih =>
      intro k off
      rw [List.cons_append, replayLookup, ih, replayLookup]
      have harith : off + (frameBytes f).length + (logOf as).length =
          off + (logOf (f :: as)).length := by
        rw [logOf_cons, List.length_append]
        omega
      rw [harith]
      cases replayLookup bs k (off + (logOf (f :: as)).length) <;> rfl

theorem keys_indexAux (fs : List Frame) : ∀ (off : Nat) (acc : List (Bytes × IndexEntry)),
    (acc.map Prod.fst).Nodup → ((indexAux fs off acc).map Prod.fst).Nodup := by
  induction fs with
  | nil => intro off acc h; exact h
  | cons f fs ih =>
      intro off acc h
      rw [indexAux]
      exact ih _ _ (nodup_insertA _ _ _ h)

theorem keys_indexOf (fs : List Frame) : ((indexOf fs).map Prod.fst).Nodup :=
  keys_indexAux fs 0 [] (by simp)

/-- A positive `replayLookup` result locates a frame of the log: the frame
is in the list, carries the looked-up key, and its bytes sit at the stated
offset. -/
theorem replayLookup_located (fs : List Frame) : ∀ (k : Bytes) (off o : Nat) (g : Frame),
    replayLookup fs k off = some (o, g) →
      g.key = k ∧ g ∈ fs ∧ off ≤ o ∧ ∃ pre post, logOf fs = pre ++ (frameBytes g ++ post) ∧
        pre.length = o - off := by
  induction fs with
  | nil => intro k off o g h; simp [replayLookup] at h
  | cons f fs ih =>
      intro k off o g h
      rw [replayLookup] at h
      cases hrl : replayLookup fs k (off + (frameBytes f).length) with
      | some r =>
          rw [hrl] at h
          cases h
          obtain ⟨hk, hmem, hle, pre, post, hlog, hpre⟩ :=
            ih k (off + (frameBytes f).length) o g hrl
          refine ⟨hk, List.mem_cons_of_mem _ hmem, by omega,
            frameBytes f ++ pre, post, ?_, ?_⟩
          · rw [logOf_cons, hlog]
            simp [List.append_assoc]
          · simp only [List.length_append]
            omega
      | none =>
          rw [hrl] at h
          simp only at h
          by_cases hk : f.key = k
          · rw [if_pos hk] at h
            cases h
            refine ⟨hk, by simp, le_refl _, [], logOf fs, ?_, by simp⟩
            rw [logOf_cons]
            simp
          · rw [if_neg hk] at h
            cases h

theorem replayLookup_none_of_not_mem (fs : List Frame) (k : Bytes)
    (h : k ∉ fs.map Frame.key) : ∀ off, replayLookup fs k off = none := by
  induction fs with
  | nil => intro off; rfl
  | cons f fs ih =>
      intro off
      rw [replayLookup, ih (fun hc => h (by simp [hc]))]
      have hk : f.key ≠ k := by
        intro hc
        exact h (by simp [hc])
      simp only
      rw [if_neg hk]

theorem replayLookup_of_mem_nodup (g : Frame) : ∀ (fs : List Frame),
    (fs.map Frame.key).Nodup → g ∈ fs →
    ∀ off, ∃ o, replayLookup fs g.key off = some (o, g) := by
  intro fs
  induction fs with
  | nil => intro _ h; simp at h
  | cons f fs ih =>
      intro hnd hmem off
      rw [replayLookup]
      rcases List.mem_cons.mp hmem with rfl | hmem
      · have hnot : g.key ∉ fs.map Frame.key := by
          simp only [List.map_cons, List.nodup_cons] at hnd
          exact hnd.1
        rw [replayLookup_none_of_not_mem fs g.key hnot]
        exact ⟨off, by simp⟩
      · have hnd' : (fs.map Frame.key).Nodup := by
          simp only [List.map_cons, List.nodup_cons] at hnd
          exact hnd.2
        obtain ⟨o, ho⟩ := ih hnd' hmem (off + (frameBytes f).length)
        rw [ho]
        exact ⟨o, rfl⟩

/-! ## Engine operations on well-formed states -/

/-- Reading the indexed frame for a key returns its live value: absent for
a tombstone, the stored value for Data. -/
theorem read_entry_WF (fs : List Frame)
    (hfs : ∀ f ∈ fs, GoodFrame f ∧ SmallFrame f) (k : Bytes)
    (o : Nat) (g : Frame) (hrl : replayLookup fs k 0 = some (o, g)) :
    read_entry_value (logOf fs) ⟨o, (frameBytes g).length % 2 ^ 32⟩ k =
      .ok (if g.typ = EntryType.Data then some g.value else none) := by
  obtain ⟨hk, hmem, -, pre, post, hlog, hpre⟩ := replayLookup_located fs k 0 o g hrl
  have hgood : GoodFrame g := (hfs g hmem).1
  have hsmall : (frameBytes g).length < 2 ^ 32 := (hfs g hmem).2
  have hmod : (⟨o, (frameBytes g).length % 2 ^ 32⟩ : IndexEntry) =
      ⟨o, (frameBytes g).length⟩ := by
    rw [Nat.mod_eq_of_lt hsmall]
  rw [hmod]
  have hpre' : pre.length = o := by omega
  have hbound : o + (frameBytes g).length ≤ (logOf fs).length := by
    rw [hlog]
    simp only [List.length_append]
    omega
  have hextract : ((logOf fs).drop o).take (frameBytes g).length = frameBytes g := by
    rw [hlog, List.drop_left' hpre']
    exact List.take_left' rfl
  rw [read_entry_value, if_pos hbound, hextract]
  have hdec := decode_buffer_to_bytes g.typ g.key g.value hgood.1 hgood.2
  rw [← hk]
  show decode_buffer (DataEntry.mk g.typ g.key g.value).to_bytes g.key = _
  rw [hdec]
  cases g.typ <;> rfl

/-- `get` on a well-formed state returns the live value of the key. -/
theorem get_WF (s : DBState) (fs : List Frame) (h : WF s fs) (k : Bytes) :
    MyDatabase.get s k = .ok (liveValue fs k) := by
  obtain ⟨hfs, hlog, hidx⟩ := h
  rw [MyDatabase.get, hidx]
  show (match lookupA (indexAux fs 0 []) k with
    | none => Except.ok none
    | some entry => read_entry_value s.log entry k) = _
  rw [lookupA_indexAux fs 0 [] k]
  cases hrl : replayLookup fs k 0 with
  | none => simp [liveValue, hrl, lookupA]
  | some r =>
      obtain ⟨o, g⟩ := r
      simp only
      rw [hlog, read_entry_WF fs hfs k o g hrl]
      rw [liveValue, hrl]

/-- `setRaw` preserves well-formedness, appending a Data frame (the
appended frame must be small enough for the `as u32` size cast to be
exact). -/
theorem setRaw_WF (s : DBState) (fs : List Frame) (h : WF s fs) (k v : Bytes)
    (hkv : 13 + k.length + (lz77_encode v).length < 2 ^ 32) :
    WF (MyDatabase.setRaw s k v) (fs ++ [⟨EntryType.Data, k, v⟩]) := by
  obtain ⟨hfs, hlog, hidx⟩ := h
  refine ⟨?_, ?_, ?_⟩
  · intro f hf
    rcases List.mem_append.mp hf with hf | hf
    · exact hfs f hf
    · simp only [List.mem_singleton] at hf
      subst hf
      refine ⟨⟨(by omega : k.length < 2 ^ 32),
        (by omega : (lz77_encode v).length < 2 ^ 32)⟩, ?_⟩
      show (frameBytes ⟨EntryType.Data, k, v⟩).length < 2 ^ 32
      have he : (frameBytes ⟨EntryType.Data, k, v⟩).length =
          13 + k.length + (lz77_encode v).length := frameBytes_length _
      omega
  · show s.log ++ (DataEntry.mk EntryType.Data k v).to_bytes = _
    rw [logOf_append, hlog]
    simp [logOf, frameBytes]
  · show insertA s.index k
        ⟨s.log.length, (DataEntry.mk EntryType.Data k v).to_bytes.length % 2 ^ 32⟩ = _
    rw [indexOf, indexAux_append, hidx, hlog, Nat.zero_add]
    rfl

/-- `deleteRaw` preserves well-formedness, appending a Tombstone frame
(small enough for the `as u32` size cast to be exact). -/
theorem deleteRaw_WF (s : DBState) (fs : List Frame) (h : WF s fs) (k : Bytes)
    (hk : 13 + k.length < 2 ^ 32) :
    WF (MyDatabase.deleteRaw s k) (fs ++ [⟨EntryType.Tombstone, k, []⟩]) := by
  obtain ⟨hfs, hlog, hidx⟩ := h
  refine ⟨?_, ?_, ?_⟩
  · intro f hf
    rcases List.mem_append.mp hf with hf | hf
    · exact hfs f hf
    · simp only [List.mem_singleton] at hf
      subst hf
      refine ⟨⟨(by omega : k.length < 2 ^ 32), by simp [lz77_encode]⟩, ?_⟩
      show (frameBytes ⟨EntryType.Tombstone, k, []⟩).length < 2 ^ 32
      have he : (frameBytes ⟨EntryType.Tombstone, k, []⟩).length =
          13 + k.length + (lz77_encode ([] : Bytes)).length := frameBytes_length _
      have h0 : (lz77_encode ([] : Bytes)).length = 0 := rfl
      omega
  · show s.log ++ (DataEntry.mk EntryType.Tombstone k []).to_bytes = _
    rw [logOf_append, hlog]
    simp [logOf, frameBytes]
  · show insertA s.index k
        ⟨s.log.length, (DataEntry.mk EntryType.Tombstone k []).to_bytes.length % 2 ^ 32⟩ = _
    rw [indexOf, indexAux_append, hidx, hlog, Nat.zero_add]
    rfl

/-- Appending one frame updates the observable value of its key and
leaves other keys alone. -/
theorem liveValue_append (fs : List Frame) (f : Frame) (k : Bytes) :
    liveValue (fs ++ [f]) k =
      if f.key = k then (if f.typ = EntryType.Data then some f.value else none)
      else liveValue fs k := by
  rw [liveValue, replayLookup_append fs [f] k 0]
  have hsingle : replayLookup [f] k (0 + (logOf fs).length) =
      if f.key = k then some (0 + (logOf fs).length, f) else none := rfl
  rw [hsingle]
  by_cases hk : f.key = k
  · rw [if_pos hk, if_pos hk]
  · rw [if_neg hk, if_neg hk, liveValue]

/-! ## Compaction lemmas -/

theorem indexOf_entry (fs : List Frame) (p : Bytes × IndexEntry) (hp : p ∈ indexOf fs) :
    ∃ o g, replayLookup fs p.1 0 = some (o, g) ∧
      p.2 = ⟨o, (frameBytes g).length % 2 ^ 32⟩ := by
  have hnd := keys_indexOf fs
  have hl : lookupA (indexOf fs) p.1 = some p.2 := lookupA_of_mem _ _ _ hnd hp
  rw [indexOf, lookupA_indexAux] at hl
  cases hrl : replayLookup fs p.1 0 with
  | none =>
      rw [hrl] at hl
      simp [lookupA] at hl
  | some r =>
      rw [hrl] at hl
      obtain ⟨o, g⟩ := r
      simp only at hl
      injection hl with he
      exact ⟨o, g, rfl, he.symm⟩

theorem liveValue_some_inv (fs : List Frame) (k v : Bytes) (h : liveValue fs k = some v) :
    ∃ o g, replayLookup fs k 0 = some (o, g) ∧ g.typ = EntryType.Data ∧ g.key = k ∧
      g.value = v ∧ g ∈ fs := by
  rw [liveValue] at h
  cases hrl : replayLookup fs k 0 with
  | none => rw [hrl] at h; simp at h
  | some r =>
      rw [hrl] at h
      obtain ⟨o, g⟩ := r
      simp only at h
      by_cases hd : g.typ = EntryType.Data
      · rw [if_pos hd] at h
        injection h with hv
        obtain ⟨hk, hmem, -, -⟩ := replayLookup_located fs k 0 o g hrl
        exact ⟨o, g, rfl, hd, hk, hv, hmem⟩
      · rw [if_neg hd] at h
        cases h

theorem frame_eta (g : Frame) (k v : Bytes) (hd : g.typ = EntryType.Data)
    (hk : g.key = k) (hv : g.value = v) : g = ⟨EntryType.Data, k, v⟩ := by
  cases g
  simp_all

theorem collectLive_WF (fs : List Frame) (hfs : ∀ f ∈ fs, GoodFrame f ∧ SmallFrame f) :
    ∀ l : List (Bytes × IndexEntry),
      (∀ p ∈ l, ∃ o g, replayLookup fs p.1 0 = some (o, g) ∧
        p.2 = ⟨o, (frameBytes g).length % 2 ^ 32⟩) →
      MyDatabase.collectLive (logOf fs) l = .ok (liveList fs l) := by
  intro l
  induction l with
  | nil => intro _; rfl
  | cons p rest ih =>
      intro hl
      obtain ⟨o, g, hrl, hpe⟩ := hl p (by simp)
      rcases p with ⟨k, e⟩
      simp only at hpe hrl
      have hread : read_entry_value (logOf fs) e k =
          .ok (if g.typ = EntryType.Data then some g.value else none) := by
        rw [hpe]
        exact read_entry_WF fs hfs k o g hrl
      have hlv : liveValue fs k = if g.typ = EntryType.Data then some g.value else none := by
        rw [liveValue, hrl]
      rw [MyDatabase.collectLive, hread, ← hlv]
      rw [ih (fun q hq => hl q (List.mem_cons_of_mem _ hq))]
      rw [liveList]
      cases liveValue fs k <;> rfl

theorem buildCompacted_fst : ∀ (entries : List (Bytes × Bytes)) (log : Bytes)
    (idx : List (Bytes × IndexEntry)),
    (MyDatabase.buildCompacted entries log idx).1 =
      log ++ logOf (entries.map fun p => ⟨EntryType.Data, p.1, p.2⟩) := by
  intro entries
  induction entries with
  | nil => intro log idx; simp [MyDatabase.buildCompacted, logOf]
  | cons p rest ih =>
      intro log idx
      rcases p with ⟨k, v⟩
      rw [MyDatabase.buildCompacted, ih]
      simp only [List.map_cons, logOf_cons, List.append_assoc]
      rfl

theorem buildCompacted_snd : ∀ (entries : List (Bytes × Bytes)) (log : Bytes)
    (idx : List (Bytes × IndexEntry)),
    (MyDatabase.buildCompacted entries log idx).2 =
      indexAux (entries.map fun p => ⟨EntryType.Data, p.1, p.2⟩) log.length idx := by
  intro entries
  induction entries with
  | nil => intro log idx; rfl
  | cons p rest ih =>
      intro log idx
      rcases p with ⟨k, v⟩
      rw [MyDatabase.buildCompacted, ih]
      simp only [List.map_cons, indexAux, List.length_append]
      rfl

theorem liveList_mem (fs : List Frame) : ∀ (l : List (Bytes × IndexEntry)) (k v : Bytes),
    (k, v) ∈ liveList fs l → liveValue fs k = some v := by
  intro l
  induction l with
  | nil => intro k v h; simp [liveList] at h
  | cons p rest ih =>
      intro k v h
      rcases p with ⟨k0, e0⟩
      rw [liveList] at h
      cases hv : liveValue fs k0 with
      | some v0 =>
          rw [hv] at h
          rcases List.mem_cons.mp h with h | h
          · injection h with h1 h2
            subst h1; subst h2
            exact hv
          · exact ih k v h
      | none =>
          rw [hv] at h
          exact ih k v h

theorem liveList_keys_sublist (fs : List Frame) : ∀ l : List (Bytes × IndexEntry),
    ((liveList fs l).map Prod.fst).Sublist (l.map Prod.fst) := by
  intro l
  induction l with
  | nil => simp [liveList]
  | cons p rest ih =>
      rcases p with ⟨k0, e0⟩
      rw [liveList]
      cases hv : liveValue fs k0 with
      | some v0 =>
          simp only [List.map_cons]
          exact List.Sublist.cons₂ _ ih
      | none =>
          simp only [List.map_cons]
          exact List.Sublist.cons _ ih

theorem liveList_mem_of (fs : List Frame) : ∀ (l : List (Bytes × IndexEntry)) (k : Bytes)
    (e : IndexEntry) (v : Bytes), (k, e) ∈ l → liveValue fs k = some v →
    (k, v) ∈ liveList fs l := by
  intro l
  induction l with
  | nil => intro k e v h _; simp at h
  | cons p rest ih =>
      intro k e v h hv
      rcases p with ⟨k0, e0⟩
      rw [liveList]
      rcases List.mem_cons.mp h with h | h
      · injection h with h1 h2
        subst h1
        rw [hv]
        exact List.mem_cons_self _ _
      · cases hv0 : liveValue fs k0 with
        | some v0 => exact List.mem_cons_of_mem _ (ih k e v h hv)
        | none => exact ih k e v h hv

theorem liveList_length_le (fs : List Frame) : ∀ l : List (Bytes × IndexEntry),
    (∀ p ∈ l, ∀ v, liveValue fs p.1 = some v →
      (frameBytes ⟨EntryType.Data, p.1, v⟩).length = p.2.size) →
    (logOf ((liveList fs l).map fun p => (⟨EntryType.Data, p.1, p.2⟩ : Frame))).length ≤
      sumSizes l := by
  intro l
  induction l with
  | nil => intro _; simp [liveList, logOf, sumSizes]
  | cons p rest ih =>
      intro hl
      rcases p with ⟨k0, e0⟩
      rw [liveList]
      have hsum : sumSizes ((k0, e0) :: rest) = e0.size + sumSizes rest := by
        simp [sumSizes]
      cases hv : liveValue fs k0 with
      | some v0 =>
          simp only [List.map_cons, logOf_cons, List.length_append]
          have hsz := hl (k0, e0) (by simp) v0 hv
          have := ih (fun q hq => hl q (List.mem_cons_of_mem _ hq))
          simp only at hsz
          omega
      | none =>
          have h := ih (fun q hq => hl q (List.mem_cons_of_mem _ hq))
          have hle : (logOf ((liveList fs rest).map fun p =>
              (⟨EntryType.Data, p.1, p.2⟩ : Frame))).length ≤ sumSizes ((k0, e0) :: rest) := by
            rw [hsum]
            omega
          exact hle

theorem sumSizes_insertA (m : List (Bytes × IndexEntry)) (k : Bytes) (e : IndexEntry) :
    sumSizes (insertA m k e) ≤ sumSizes m + e.size := by
  induction m with
  | nil => simp [insertA, sumSizes]
  | cons p rest ih =>
      rw [insertA]
      by_cases h : p.1 = k
      · rw [if_pos h]
        simp only [sumSizes, List.map_cons, List.sum_cons]
        omega
      · rw [if_neg h]
        simp only [sumSizes, List.map_cons, List.sum_cons] at ih ⊢
        omega

theorem sumSizes_indexAux (fs : List Frame) : ∀ (off : Nat) (acc : List (Bytes × IndexEntry)),
    sumSizes (indexAux fs off acc) ≤ (logOf fs).length + sumSizes acc := by
  induction fs with
  | nil => intro off acc; simp [indexAux, logOf]
  | cons f fs ih =>
      intro off acc
      rw [indexAux]
      have h1 := ih (off + (frameBytes f).length)
        (insertA acc f.key ⟨off, (frameBytes f).length % 2 ^ 32⟩)
      have h2 := sumSizes_insertA acc f.key ⟨off, (frameBytes f).length % 2 ^ 32⟩
      simp only at h2
      rw [logOf_cons]
      simp only [List.length_append]
      omega

theorem sumSizes_perm (l l' : List (Bytes × IndexEntry)) (h : l.Perm l') :
    sumSizes l = sumSizes l' :=
  List.Perm.sum_eq (List.Perm.map _ h)

/-- The full specification of `compact` on a well-formed state: it
succeeds, the new log is a concatenation of one Data frame per live key
(no tombstones), the observable map is unchanged, and the log does not
grow. -/
theorem compact_spec (s : DBState) (fs : List Frame) (h : WF s fs) :
    ∃ gs : List Frame,
      MyDatabase.compact s = .ok ⟨logOf gs, indexOf gs, s.maxSize⟩ ∧
      (∀ g ∈ gs, GoodFrame g ∧ SmallFrame g) ∧ (∀ g ∈ gs, g.typ = EntryType.Data) ∧
      (gs.map Frame.key).Nodup ∧
      (∀ k, liveValue gs k = liveValue fs k) ∧
      (logOf gs).length ≤ (logOf fs).length ∧
      (∀ k, (∃ g ∈ gs, g.key = k) ↔ liveValue fs k ≠ none) := by
  obtain ⟨hfs, hlog, hidx⟩ := h
  have hperm : (MyDatabase.sortByOffset s.index).Perm (indexOf fs) := by
    rw [hidx]; exact sortByOffset_perm _
  have hentry : ∀ p ∈ MyDatabase.sortByOffset s.index, ∃ o g,
      replayLookup fs p.1 0 = some (o, g) ∧ p.2 = ⟨o, (frameBytes g).length % 2 ^ 32⟩ :=
    fun p hp => indexOf_entry fs p (hperm.subset hp)
  have hcollect : MyDatabase.collectLive s.log (MyDatabase.sortByOffset s.index) =
      .ok (liveList fs (MyDatabase.sortByOffset s.index)) := by
    rw [hlog]
    exact collectLive_WF fs hfs _ hentry
  refine ⟨(liveList fs (MyDatabase.sortByOffset s.index)).map
    (fun p => (⟨EntryType.Data, p.1, p.2⟩ : Frame)), ?_, ?_, ?_, ?_, ?_, ?_, ?_⟩
  case _ =>
    rw [MyDatabase.compact, hcollect]
    have hbc : MyDatabase.buildCompacted (liveList fs (MyDatabase.sortByOffset s.index)) [] [] =
        (logOf ((liveList fs (MyDatabase.sortByOffset s.index)).map
            (fun p => (⟨EntryType.Data, p.1, p.2⟩ : Frame))),
          indexOf ((liveList fs (MyDatabase.sortByOffset s.index)).map
            (fun p => (⟨EntryType.Data, p.1, p.2⟩ : Frame)))) := by
      refine Prod.ext ?_ ?_
      · rw [buildCompacted_fst]
        rfl
      · rw [buildCompacted_snd]
        rfl
    show (match MyDatabase.buildCompacted (liveList fs (MyDatabase.sortByOffset s.index)) [] []
        with
      | (newLog, newIndex) => Except.ok { s with log := newLog, index := newIndex }) = _
    rw [hbc]
  case _ =>
    intro g hg
    obtain ⟨⟨k, v⟩, hmem, rfl⟩ := List.mem_map.mp hg
    have hv := liveList_mem fs _ k v hmem
    obtain ⟨o, g0, hrl, hd, hkey, hval, hmem0⟩ := liveValue_some_inv fs k v hv
    have he := frame_eta g0 k v hd hkey hval
    exact he ▸ hfs g0 hmem0
  case _ =>
    intro g hg
    obtain ⟨⟨k, v⟩, hmem, rfl⟩ := List.mem_map.mp hg
    rfl
  case _ =>
    rw [List.map_map]
    show ((liveList fs (MyDatabase.sortByOffset s.index)).map Prod.fst).Nodup
    have hnd : ((MyDatabase.sortByOffset s.index).map Prod.fst).Nodup :=
      (List.Perm.nodup_iff (List.Perm.map Prod.fst hperm)).mpr (keys_indexOf fs)
    exact List.Nodup.sublist (liveList_keys_sublist fs _) hnd
  case _ =>
    have hndgs : (((liveList fs (MyDatabase.sortByOffset s.index)).map
        (fun p => (⟨EntryType.Data, p.1, p.2⟩ : Frame))).map Frame.key).Nodup := by
      rw [List.map_map]
      have hnd : ((MyDatabase.sortByOffset s.index).map Prod.fst).Nodup :=
        (List.Perm.nodup_iff (List.Perm.map Prod.fst hperm)).mpr (keys_indexOf fs)
      exact List.Nodup.sublist (liveList_keys_sublist fs _) hnd
    intro k
    cases hv : liveValue fs k with
    | some v =>
        obtain ⟨o, g0, hrl, hd, hkey, hval, hmem0⟩ := liveValue_some_inv fs k v hv
        have hlk : lookupA (indexOf fs) k = some ⟨o, (frameBytes g0).length % 2 ^ 32⟩ := by
          rw [indexOf, lookupA_indexAux, hrl]
        have hmemidx : (k, (⟨o, (frameBytes g0).length % 2 ^ 32⟩ : IndexEntry)) ∈ indexOf fs :=
          lookupA_mem _ _ _ hlk
        have hmemsnap : (k, (⟨o, (frameBytes g0).length % 2 ^ 32⟩ : IndexEntry)) ∈
            MyDatabase.sortByOffset s.index := hperm.mem_iff.mpr hmemidx
        have hmemLL : (k, v) ∈ liveList fs (MyDatabase.sortByOffset s.index) :=
          liveList_mem_of fs _ k ⟨o, (frameBytes g0).length % 2 ^ 32⟩ v hmemsnap hv
        have hg : (⟨EntryType.Data, k, v⟩ : Frame) ∈
            (liveList fs (MyDatabase.sortByOffset s.index)).map
              (fun p => (⟨EntryType.Data, p.1, p.2⟩ : Frame)) :=
          List.mem_map_of_mem _ hmemLL
        obtain ⟨o', ho'⟩ :=
          replayLookup_of_mem_nodup (⟨EntryType.Data, k, v⟩ : Frame) _ hndgs hg 0
        rw [liveValue, ho']
        rfl
    | none =>
        have hnot : k ∉ ((liveList fs (MyDatabase.sortByOffset s.index)).map
            (fun p => (⟨EntryType.Data, p.1, p.2⟩ : Frame))).map Frame.key := by
          intro hc
          rw [List.map_map] at hc
          obtain ⟨⟨k1, v1⟩, hm, hfst⟩ := List.mem_map.mp hc
          have := liveList_mem fs _ k1 v1 hm
          rw [show k1 = k from hfst] at this
          rw [hv] at this
          cases this
        rw [liveValue, replayLookup_none_of_not_mem _ k hnot 0]
  case _ =>
    have hsize : ∀ p ∈ MyDatabase.sortByOffset s.index, ∀ v, liveValue fs p.1 = some v →
        (frameBytes ⟨EntryType.Data, p.1, v⟩).length = p.2.size := by
      intro p hp v hpv
      obtain ⟨o, g0, hrl, hpe⟩ := hentry p hp
      obtain ⟨o2, g2, hrl2, hd2, hk2, hv2, hm2⟩ := liveValue_some_inv fs p.1 v hpv
      rw [hrl] at hrl2
      injection hrl2 with he
      have ho : o = o2 := congrArg Prod.fst he
      have hg02 : g0 = g2 := congrArg Prod.snd he
      have hfr : g0 = (⟨EntryType.Data, p.1, v⟩ : Frame) := by
        rw [hg02]
        exact frame_eta g2 p.1 v hd2 hk2 hv2
      rw [← hfr, hpe]
      show (frameBytes g0).length = (frameBytes g0).length % 2 ^ 32
      have hsg : (frameBytes g0).length < 2 ^ 32 := by
        rw [hg02]
        exact (hfs g2 hm2).2
      omega
    have h1 := liveList_length_le fs (MyDatabase.sortByOffset s.index) hsize
    have h2 : sumSizes (MyDatabase.sortByOffset s.index) = sumSizes (indexOf fs) :=
      sumSizes_perm _ _ hperm
    have h3 : sumSizes (indexOf fs) ≤ (logOf fs).length + sumSizes [] :=
      sumSizes_indexAux fs 0 []
    have h4 : sumSizes ([] : List (Bytes × IndexEntry)) = 0 := rfl
    omega
  case _ =>
    intro k
    constructor
    · rintro ⟨g, hg, hgk⟩
      obtain ⟨⟨k1, v1⟩, hm, rfl⟩ := List.mem_map.mp hg
      have hlv := liveList_mem fs _ k1 v1 hm
      have hk1 : k1 = k := hgk
      rw [hk1] at hlv
      rw [hlv]
      simp
    · intro hne
      cases hv : liveValue fs k with
      | none => exact absurd hv hne
      | some v =>
          obtain ⟨o, g0, hrl, hd, hkey, hval, hmem0⟩ := liveValue_some_inv fs k v hv
          have hlk : lookupA (indexOf fs) k =
              some ⟨o, (frameBytes g0).length % 2 ^ 32⟩ := by
            rw [indexOf, lookupA_indexAux, hrl]
          have hmemidx : (k, (⟨o, (frameBytes g0).length % 2 ^ 32⟩ : IndexEntry)) ∈
              indexOf fs := lookupA_mem _ _ _ hlk
          have hmemsnap : (k, (⟨o, (frameBytes g0).length % 2 ^ 32⟩ : IndexEntry)) ∈
              MyDatabase.sortByOffset s.index := hperm.mem_iff.mpr hmemidx
          have hmemLL : (k, v) ∈ liveList fs (MyDatabase.sortByOffset s.index) :=
            liveList_mem_of fs _ k ⟨o, (frameBytes g0).length % 2 ^ 32⟩ v hmemsnap hv
          exact ⟨⟨EntryType.Data, k, v⟩, List.mem_map_of_mem _ hmemLL, rfl⟩

/-! ## `maybe_compact`, `set` and `delete` on well-formed states -/

theorem maybeCompactLoop_spec : ∀ (fuel : Nat) (s : DBState) (fs : List Frame), WF s fs →
    ∃ s' fs', MyDatabase.maybeCompactLoop fuel s = .ok s' ∧ WF s' fs' ∧
      s'.maxSize = s.maxSize ∧ (∀ k, liveValue fs' k = liveValue fs k) ∧
      s'.log.length ≤ s.log.length := by
  intro fuel
  induction fuel with
  | zero =>
      intro s fs h
      exact ⟨s, fs, rfl, h, rfl, fun _ => rfl, le_refl _⟩
  | succ n ih =>
      intro s fs h
      by_cases hlt : s.log.length < s.maxSize
      · refine ⟨s, fs, ?_, h, rfl, fun _ => rfl, le_refl _⟩
        rw [MyDatabase.maybeCompactLoop, if_pos hlt]
      · obtain ⟨gs, hc, hgood, -, -, hlv, hlen, -⟩ := compact_spec s fs h
        have hWF1 : WF (⟨logOf gs, indexOf gs, s.maxSize⟩ : DBState) gs := ⟨hgood, rfl, rfl⟩
        have hlen1 : (logOf gs).length ≤ s.log.length := by
          rw [h.2.1]
          exact hlen
        have heq : MyDatabase.maybeCompactLoop (n + 1) s =
            (if s.log.length ≤ (logOf gs).length then
              Except.ok (⟨logOf gs, indexOf gs, s.maxSize⟩ : DBState)
             else MyDatabase.maybeCompactLoop n ⟨logOf gs, indexOf gs, s.maxSize⟩) := by
          rw [MyDatabase.maybeCompactLoop, if_neg hlt, hc]
          rfl
        rw [heq]
        by_cases hle : s.log.length ≤ (logOf gs).length
        · rw [if_pos hle]
          exact ⟨_, gs, rfl, hWF1, rfl, hlv, hlen1⟩
        · rw [if_neg hle]
          obtain ⟨s2, fs2, he2, hw2, hm2, hl2, hle2⟩ :=
            ih ⟨logOf gs, indexOf gs, s.maxSize⟩ gs hWF1
          exact ⟨s2, fs2, he2, hw2, hm2, fun k => (hl2 k).trans (hlv k),
            le_trans hle2 hlen1⟩

theorem maybe_compact_spec (s : DBState) (fs : List Frame) (h : WF s fs) :
    ∃ s' fs', MyDatabase.maybe_compact s = .ok s' ∧ WF s' fs' ∧ s'.maxSize = s.maxSize ∧
      (∀ k, liveValue fs' k = liveValue fs k) ∧ s'.log.length ≤ s.log.length := by
  rw [MyDatabase.maybe_compact]
  by_cases h0 : s.maxSize = 0
  · rw [if_pos h0]
    exact ⟨s, fs, rfl, h, rfl, fun _ => rfl, le_refl _⟩
  · rw [if_neg h0]
    exact maybeCompactLoop_spec _ s fs h

theorem maybe_compact_zero (s : DBState) (h : s.maxSize = 0) :
    MyDatabase.maybe_compact s = .ok s := by
  rw [MyDatabase.maybe_compact, if_pos h]

/-- A successful `set` yields a well-formed state whose observable map is
that of the old log extended with the new Data frame. -/
theorem set_spec (s : DBState) (fs : List Frame) (h : WF s fs) (k v : Bytes)
    (hkv : 13 + k.length + (lz77_encode v).length < 2 ^ 32) :
    ∃ s' fs', MyDatabase.set s k v = .ok s' ∧ WF s' fs' ∧ s'.maxSize = s.maxSize ∧
      (∀ k', liveValue fs' k' = liveValue (fs ++ [⟨EntryType.Data, k, v⟩]) k') := by
  have hWF := setRaw_WF s fs h k v hkv
  obtain ⟨s', fs', he, hw, hm, hl, -⟩ := maybe_compact_spec _ _ hWF
  exact ⟨s', fs', he, hw, hm, hl⟩

/-- A successful `delete` yields a well-formed state whose observable map
is that of the old log extended with the tombstone. -/
theorem delete_spec (s : DBState) (fs : List Frame) (h : WF s fs) (k : Bytes)
    (hk : 13 + k.length < 2 ^ 32) :
    ∃ s' fs', MyDatabase.delete s k = .ok s' ∧ WF s' fs' ∧ s'.maxSize = s.maxSize ∧
      (∀ k', liveValue fs' k' = liveValue (fs ++ [⟨EntryType.Tombstone, k, []⟩]) k') := by
  have hWF := deleteRaw_WF s fs h k hk
  obtain ⟨s', fs', he, hw, hm, hl, -⟩ := maybe_compact_spec _ _ hWF
  exact ⟨s', fs', he, hw, hm, hl⟩

theorem recordsOf_checksum (fs : List Frame) : ∀ (off : Nat) (r : LogRecord),
    r ∈ recordsOf fs off → r.checksum_ok = true := by
  induction fs with
  | nil => intro off r h; simp [recordsOf] at h
  | cons f fs ih =>
      intro off r h
      rw [recordsOf] at h
      rcases List.mem_cons.mp h with rfl | h
      · rfl
      · exact ih _ r h

/-- Every successful `decLoop` run only extends the accumulated output,
strictly so when it consumed at least one chunk. -/
theorem decLoop_grows : ∀ (fuel : Nat) (input out0 out : Bytes),
    decLoop fuel input out0 = some out →
    out0.length ≤ out.length ∧ (input ≠ [] → out0.length < out.length) := by
  intro fuel
  induction fuel with
  | zero =>
      intro input out0 out h
      rcases input with _ | ⟨tag, rest⟩
      · simp only [decLoop] at h
        injection h with h
        subst h
        exact ⟨le_refl _, fun hc => absurd rfl hc⟩
      · simp [decLoop] at h
  | succ n ih =>
      intro input out0 out h
      rcases input with _ | ⟨tag, rest⟩
      · simp only [decLoop] at h
        injection h with h
        subst h
        exact ⟨le_refl _, fun hc => absurd rfl hc⟩
      · have key : out0.length ≤ out.length ∧ out0.length < out.length := by
          rcases tag with _ | _ | t
          · rcases rest with _ | ⟨len, rest2⟩
            · simp [decLoop] at h
            · simp only [decLoop] at h
              by_cases hc : len = 0 ∨ rest2.length < len
              · rw [if_pos hc] at h; cases h
              · rw [if_neg hc] at h
                obtain ⟨h1, -⟩ := ih _ _ _ h
                simp only [List.length_append, List.length_take] at h1
                have hmin : 1 ≤ min len rest2.length := by omega
                exact ⟨by omega, by omega⟩
          · rcases rest with _ | ⟨d1, _ | ⟨d2, _ | ⟨len, rest3⟩⟩⟩
            · simp [decLoop] at h
            · simp [decLoop] at h
            · simp [decLoop] at h
            · simp only [decLoop] at h
              by_cases hc : d1 * 256 + d2 = 0 ∨ len = 0 ∨ out0.length < d1 * 256 + d2
              · rw [if_pos hc] at h; cases h
              · rw [if_neg hc] at h
                obtain ⟨h1, -⟩ := ih _ _ _ h
                rw [copyLoop_length] at h1
                exact ⟨by omega, by omega⟩
          · simp [decLoop] at h
        exact ⟨key.1, fun _ => key.2⟩

/-- C1.  The value codec round-trips: decoding the encoding of any byte
string (each byte < 256), including the empty one, succeeds and returns
the original bytes. -/
theorem claim_C1_codec_roundtrip (x : Bytes) (hx : ∀ b ∈ x, b < 256) :
    lz77_decode (lz77_encode x) = some x :=
  lz77_roundtrip x

theorem claim_C1_witness :
    (∀ b ∈ ([1, 2, 3, 1, 2, 3, 1, 2, 3] : Bytes), b < 256) ∧
      lz77_decode (lz77_encode [1, 2, 3, 1, 2, 3, 1, 2, 3]) =
        some [1, 2, 3, 1, 2, 3, 1, 2, 3] :=
  ⟨by decide, claim_C1_codec_roundtrip [1, 2, 3, 1, 2, 3, 1, 2, 3] (by decide)⟩

/-- C5 counterexample.  On input `[1,2,3,9,1,2,3,8,1,2,3]` at position 8
the longest match has length 3 and is attained both at distance 8
(window position 0) and at distance 4 (window position 4); the encoder
emits the back-reference `[1, 0, 8, 3]` with distance 8 — the largest
distance, not the smallest as the claim states. -/
theorem claim_C5_counterexample :
    find_longest_match [1, 2, 3, 9, 1, 2, 3, 8, 1, 2, 3] 8 = (8, 3) ∧
    matchLenFrom [1, 2, 3, 9, 1, 2, 3, 8, 1, 2, 3] 4 8 = 3 ∧
    (∀ j, j < 8 → matchLenFrom [1, 2, 3, 9, 1, 2, 3, 8, 1, 2, 3] j 8 ≤ 3) ∧
    lz77_encode [1, 2, 3, 9, 1, 2, 3, 8, 1, 2, 3] =
      [0, 4, 1, 2, 3, 9, 1, 0, 4, 3, 0, 1, 8, 1, 0, 8, 3] := by
  decide

/-- C5 (amended).  At every position the chosen match length dominates all
window positions, and a positive best match is attained at the smallest
window position among those attaining it — i.e. on ties the encoder keeps
the match of LARGEST distance (farthest-first), because the scan only
replaces the best on a strictly longer match; and the encoder emits a
back-reference exactly when the longest match length is at least 3,
otherwise it extends the literal buffer. -/
theorem claim_C5_amended (input : Bytes) (i : Nat) (hi : i < input.length) :
    ((∀ j, i ≤ 4095 + j → j < i →
        matchLenFrom input j i ≤ (find_longest_match input i).2) ∧
      (0 < (find_longest_match input i).2 →
        ∃ j0, j0 < i ∧ i ≤ 4095 + j0 ∧ (find_longest_match input i).1 = i - j0 ∧
          matchLenFrom input j0 i = (find_longest_match input i).2 ∧
          ∀ j, i ≤ 4095 + j → j < j0 →
            matchLenFrom input j i < (find_longest_match input i).2)) ∧
    ∀ (fuel : Nat) (lits : Bytes),
      (3 ≤ (find_longest_match input i).2 →
        encLoop input (fuel + 1) i lits =
          (if lits.isEmpty then [] else emit_literals lits) ++
            1 :: be16 (find_longest_match input i).1 ++
              (find_longest_match input i).2 % 256 ::
                encLoop input fuel (i + (find_longest_match input i).2) []) ∧
      ((find_longest_match input i).2 < 3 →
        encLoop input (fuel + 1) i lits =
          (if (lits ++ [input.getD i 0]).length = 255 then
            emit_literals (lits ++ [input.getD i 0]) ++ encLoop input fuel (i + 1) []
          else encLoop input fuel (i + 1) (lits ++ [input.getD i 0]))) := by
  refine ⟨?_, ?_⟩
  · obtain ⟨-, hbest, hall⟩ := find_longest_match_spec input i
    exact ⟨fun j hw hj => hall j hw hj, hbest⟩
  · intro fuel lits
    refine ⟨fun h3 => ?_, fun h3 => ?_⟩
    · rw [encLoop, if_pos hi, if_pos h3]
    · rw [encLoop, if_pos hi, if_neg (by omega)]

theorem claim_C5_amended_witness :
    (8 < ([1, 2, 3, 9, 1, 2, 3, 8, 1, 2, 3] : Bytes).length) ∧
      (((∀ j, 8 ≤ 4095 + j → j < 8 →
          matchLenFrom [1, 2, 3, 9, 1, 2, 3, 8, 1, 2, 3] j 8 ≤
            (find_longest_match [1, 2, 3, 9, 1, 2, 3, 8, 1, 2, 3] 8).2) ∧
        (0 < (find_longest_match [1, 2, 3, 9, 1, 2, 3, 8, 1, 2, 3] 8).2 →
          ∃ j0, j0 < 8 ∧ 8 ≤ 4095 + j0 ∧
            (find_longest_match [1, 2, 3, 9, 1, 2, 3, 8, 1, 2, 3] 8).1 = 8 - j0 ∧
            matchLenFrom [1, 2, 3, 9, 1, 2, 3, 8, 1, 2, 3] j0 8 =
              (find_longest_match [1, 2, 3, 9, 1, 2, 3, 8, 1, 2, 3] 8).2 ∧
            ∀ j, 8 ≤ 4095 + j → j < j0 →
              matchLenFrom [1, 2, 3, 9, 1, 2, 3, 8, 1, 2, 3] j 8 <
                (find_longest_match [1, 2, 3, 9, 1, 2, 3, 8, 1, 2, 3] 8).2)) ∧
      ∀ (fuel : Nat) (lits : Bytes),
        (3 ≤ (find_longest_match [1, 2, 3, 9, 1, 2, 3, 8, 1, 2, 3] 8).2 →
          encLoop [1, 2, 3, 9, 1, 2, 3, 8, 1, 2, 3] (fuel + 1) 8 lits =
            (if lits.isEmpty then [] else emit_literals lits) ++
              1 :: be16 (find_longest_match [1, 2, 3, 9, 1, 2, 3, 8, 1, 2, 3] 8).1 ++
                (find_longest_match [1, 2, 3, 9, 1, 2, 3, 8, 1, 2, 3] 8).2 % 256 ::
                  encLoop [1, 2, 3, 9, 1, 2, 3, 8, 1, 2, 3] fuel
                    (8 + (find_longest_match [1, 2, 3, 9, 1, 2, 3, 8, 1, 2, 3] 8).2) []) ∧
        ((find_longest_match [1, 2, 3, 9, 1, 2, 3, 8, 1, 2, 3] 8).2 < 3 →
          encLoop [1, 2, 3, 9, 1, 2, 3, 8, 1, 2, 3] (fuel + 1) 8 lits =
            (if (lits ++ [([1, 2, 3, 9, 1, 2, 3, 8, 1, 2, 3] : Bytes).getD 8 0]).length = 255
              then emit_literals (lits ++ [([1, 2, 3, 9, 1, 2, 3, 8, 1, 2, 3] : Bytes).getD 8 0]) ++
                encLoop [1, 2, 3, 9, 1, 2, 3, 8, 1, 2, 3] fuel (8 + 1) []
            else encLoop [1, 2, 3, 9, 1, 2, 3, 8, 1, 2, 3] fuel (8 + 1)
              (lits ++ [([1, 2, 3, 9, 1, 2, 3, 8, 1, 2, 3] : Bytes).getD 8 0])))) :=
  ⟨by decide, claim_C5_amended [1, 2, 3, 9, 1, 2, 3, 8, 1, 2, 3] 8 (by decide)⟩

/-- Folding `set` over a list of values from a well-formed state: all
writes succeed and the last value written is live. -/
theorem foldl_set_spec (k : Bytes) :
    ∀ (vs : List Bytes) (s : DBState) (fs : List Frame), WF s fs →
      (∀ v ∈ vs, 13 + k.length + (lz77_encode v).length < 2 ^ 32) →
      ∀ w, vs.getLast? = some w →
      ∃ s' fs', vs.foldlM (fun st v => MyDatabase.set st k v) s = .ok s' ∧
        WF s' fs' ∧ liveValue fs' k = some w := by
  intro vs
  induction vs with
  | nil => intro s fs _ _ w hw; simp at hw
  | cons v rest ih =>
      intro s fs h hvs w hw
      obtain ⟨s1, fs1, hset, hw1, -, hlv1⟩ :=
        set_spec s fs h k v (hvs v (List.mem_cons_self v rest))
      have hfold : (v :: rest).foldlM (fun st v => MyDatabase.set st k v) s =
          rest.foldlM (fun st v => MyDatabase.set st k v) s1 := by
        rw [List.foldlM_cons, hset]
        rfl
      rcases rest with _ | ⟨v2, rest2⟩
      · have hwv : w = v := by
          simp [List.getLast?] at hw
          exact hw.symm
        refine ⟨s1, fs1, by rw [hfold]; rfl, hw1, ?_⟩
        rw [hlv1 k, liveValue_append, hwv]
        simp
      · have hw2 : (v2 :: rest2).getLast? = some w := by
          rw [← List.getLast?_cons_cons (a := v)]
          exact hw
        obtain ⟨s', fs', hf2, hw', hl⟩ := ih s1 fs1 hw1
          (fun x hx => hvs x (List.mem_cons_of_mem v hx)) w hw2
        exact ⟨s', fs', by rw [hfold]; exact hf2, hw', hl⟩

/-- Reading an index entry whose stored size is zero yields a 0-byte
buffer, which fails the decoder's 9-byte header check. -/
theorem read_entry_size_zero (log k : Bytes) :
    read_entry_value log ⟨0, 0⟩ k = .error .InvalidFormat := by
  rw [read_entry_value, if_pos (by simp)]
  show decode_buffer (List.take 0 (List.drop 0 log)) k = _
  rw [List.take_zero, decode_buffer, if_pos (by decide)]

/-- Writing a key of `2^32 - 13` bytes (empty value) from the empty
engine stores a frame of exactly `2^32` bytes, whose `as u32` size wraps
to `0` in the index. -/
theorem setRaw_big_index :
    (MyDatabase.setRaw ⟨[], [], 0⟩ (List.replicate (2 ^ 32 - 13) 0) []).index =
      [((List.replicate (2 ^ 32 - 13) 0), (⟨0, 0⟩ : IndexEntry))] := by
  have hlen : ((DataEntry.mk EntryType.Data (List.replicate (2 ^ 32 - 13) 0)
      []).to_bytes).length % 2 ^ 32 = 0 := by
    rw [to_bytes_length, List.length_replicate]
    have h0 : (lz77_encode ([] : Bytes)).length = 0 := rfl
    omega
  show [((List.replicate (2 ^ 32 - 13) 0),
    (⟨0, ((DataEntry.mk EntryType.Data (List.replicate (2 ^ 32 - 13) 0)
      []).to_bytes).length % 2 ^ 32⟩ : IndexEntry))] = _
  rw [hlen]

/-- C2 counterexample.  The `bytes.len() as u32` cast in `set` wraps for a
frame of exactly `2^32` bytes: writing a key of `2^32 - 13` bytes with an
empty value succeeds, but its index entry records size 0, so the very next
`get` of that key reads a 0-byte buffer and fails with `InvalidFormat`
instead of returning the value just written — refuting last-write-wins for
unbounded keys. -/
theorem claim_C2_counterexample :
    ∃ s', MyDatabase.set ⟨[], [], 0⟩ (List.replicate (2 ^ 32 - 13) 0) [] = .ok s' ∧
      MyDatabase.get s' (List.replicate (2 ^ 32 - 13) 0) = .error .InvalidFormat := by
  refine ⟨MyDatabase.setRaw ⟨[], [], 0⟩ (List.replicate (2 ^ 32 - 13) 0) [], ?_, ?_⟩
  · rw [MyDatabase.set]
    exact maybe_compact_zero _ rfl
  · rw [MyDatabase.get, setRaw_big_index, lookupA, if_pos rfl]
    show read_entry_value (MyDatabase.setRaw ⟨[], [], 0⟩ (List.replicate (2 ^ 32 - 13) 0) []).log
      ⟨0, 0⟩ (List.replicate (2 ^ 32 - 13) 0) = Except.error DatabaseError.InvalidFormat
    exact read_entry_size_zero _ _

/-- C2 (amended).  Last write wins for frames below the `u32` size limit:
from any reachable state, a finite non-empty sequence of successful
`set k v_1, ..., set k v_n` whose frames each measure under `2^32` bytes
(`13 + |k| + |lz77_encode v_i| < 2^32`, the exactness condition of the
`bytes.len() as u32` cast) leaves the engine in a state where `get k`
returns the last value written. -/
theorem claim_C2_last_write_wins (s : DBState) (fs : List Frame) (h : WF s fs)
    (k : Bytes) (vs : List Bytes) (w : Bytes) (hlast : vs.getLast? = some w)
    (hvs : ∀ v ∈ vs, 13 + k.length + (lz77_encode v).length < 2 ^ 32) :
    ∃ s', vs.foldlM (fun st v => MyDatabase.set st k v) s = .ok s' ∧
      MyDatabase.get s' k = .ok (some w) := by
  obtain ⟨s', fs', hf, hw', hl⟩ := foldl_set_spec k vs s fs h hvs w hlast
  exact ⟨s', hf, by rw [get_WF s' fs' hw' k, hl]⟩

theorem claim_C2_witness :
    WF ⟨[], [], 0⟩ [] ∧
      ∃ s', ([[2], [3]] : List Bytes).foldlM
          (fun st v => MyDatabase.set st [1] v) ⟨[], [], 0⟩ = .ok s' ∧
        MyDatabase.get s' [1] = .ok (some [3]) :=
  ⟨⟨by decide, rfl, rfl⟩,
    claim_C2_last_write_wins ⟨[], [], 0⟩ [] ⟨by decide, rfl, rfl⟩ [1] [[2], [3]] [3]
      (by decide) (by decide)⟩

/-- C3 counterexample.  With `max_size = 1`, deleting a key from the empty
engine triggers automatic compaction, which drops the tombstone frame and
its key from the index: after this successful `delete`, the key is no
longer in the index at all, refuting the claim's parenthetical that the
key stays in the index bound to the tombstone frame. -/
theorem claim_C3_counterexample :
    MyDatabase.delete ⟨[], [], 1⟩ [5] = .ok ⟨[], [], 1⟩ ∧
      lookupA (DBState.mk [] [] 1).index [5] = none := by
  decide

/-- C3 (amended).  For frames below the `u32` size limit
(`13 + |k| + |lz77_encode v| < 2^32`): after a successful `delete k`,
`get k` returns absent; when no automatic compaction can run
(`max_size = 0`), the key moreover stays in the index, bound to the
tombstone frame just appended at the old end of file (with its length
stored through the `as u32` cast); and after a subsequent successful
`set k v`, `get k` returns `v`. -/
theorem claim_C3_amended (s : DBState) (fs : List Frame) (h : WF s fs)
    (k v : Bytes) (hkv : 13 + k.length + (lz77_encode v).length < 2 ^ 32) :
    ∃ s1, MyDatabase.delete s k = .ok s1 ∧
      MyDatabase.get s1 k = .ok none ∧
      (s.maxSize = 0 →
        lookupA s1.index k =
          some ⟨s.log.length, ((DataEntry.mk .Tombstone k []).to_bytes).length % 2 ^ 32⟩ ∧
        s1.log = s.log ++ (DataEntry.mk .Tombstone k []).to_bytes) ∧
      ∃ s2, MyDatabase.set s1 k v = .ok s2 ∧ MyDatabase.get s2 k = .ok (some v) := by
  obtain ⟨s1, fs1, hdel, hw1, hm1, hlv1⟩ := delete_spec s fs h k (by omega)
  have hget1 : MyDatabase.get s1 k = .ok none := by
    rw [get_WF s1 fs1 hw1 k, hlv1 k, liveValue_append]
    simp
  refine ⟨s1, hdel, hget1, ?_, ?_⟩
  · intro h0
    have hz : MyDatabase.delete s k = .ok (MyDatabase.deleteRaw s k) := by
      rw [MyDatabase.delete]
      exact maybe_compact_zero _ h0
    rw [hdel] at hz
    have hs1 : s1 = MyDatabase.deleteRaw s k := by injection hz
    constructor
    · rw [hs1]
      exact lookupA_insertA_self s.index k _
    · rw [hs1]
      rfl
  · obtain ⟨s2, fs2, hset, hw2, -, hlv2⟩ := set_spec s1 fs1 hw1 k v hkv
    refine ⟨s2, hset, ?_⟩
    rw [get_WF s2 fs2 hw2 k, hlv2 k, liveValue_append]
    simp

theorem claim_C3_amended_witness :
    WF ⟨[], [], 0⟩ [] ∧
      ∃ s1, MyDatabase.delete ⟨[], [], 0⟩ [5] = .ok s1 ∧
        MyDatabase.get s1 [5] = .ok none ∧
        ((DBState.mk [] [] 0).maxSize = 0 →
          lookupA s1.index [5] =
            some ⟨(DBState.mk [] [] 0).log.length,
              ((DataEntry.mk .Tombstone [5] []).to_bytes).length % 2 ^ 32⟩ ∧
          s1.log = (DBState.mk [] [] 0).log ++ (DataEntry.mk .Tombstone [5] []).to_bytes) ∧
        ∃ s2, MyDatabase.set s1 [5] [7] = .ok s2 ∧
          MyDatabase.get s2 [5] = .ok (some [7]) :=
  ⟨⟨by decide, rfl, rfl⟩,
    claim_C3_amended ⟨[], [], 0⟩ [] ⟨by decide, rfl, rfl⟩ [5] [7] (by decide)⟩

/-- C4 counterexample.  On the engine state produced by writing one
`2^32`-byte frame (reachable by a successful `set`), the `as u32` size
cast wraps the frame's index size to 0 and `compact` fails with
`InvalidFormat` on the truncated read-back — refuting the claim for
unbounded engine states. -/
theorem claim_C4_counterexample :
    ∃ s', MyDatabase.set ⟨[], [], 0⟩ (List.replicate (2 ^ 32 - 13) 0) [] = .ok s' ∧
      MyDatabase.compact s' = .error .InvalidFormat := by
  refine ⟨MyDatabase.setRaw ⟨[], [], 0⟩ (List.replicate (2 ^ 32 - 13) 0) [], ?_, ?_⟩
  · rw [MyDatabase.set]
    exact maybe_compact_zero _ rfl
  · have hcol : MyDatabase.collectLive
        (MyDatabase.setRaw ⟨[], [], 0⟩ (List.replicate (2 ^ 32 - 13) 0) []).log
        (MyDatabase.sortByOffset
          (MyDatabase.setRaw ⟨[], [], 0⟩ (List.replicate (2 ^ 32 - 13) 0) []).index) =
        .error .InvalidFormat := by
      rw [setRaw_big_index]
      show MyDatabase.collectLive _ [((List.replicate (2 ^ 32 - 13) 0), (⟨0, 0⟩ : IndexEntry))] = _
      rw [MyDatabase.collectLive, read_entry_size_zero]
      rfl
    rw [MyDatabase.compact, hcol]
    rfl

/-- C4 (amended).  From any reachable state whose frames all measure
under `2^32` bytes (the exactness condition of the `as u32` size casts),
`compact` succeeds, preserves every key's observable value, never grows
the log, and rewrites the log as a sequence of Data frames with pairwise
distinct keys — exactly one frame per live key and no Tombstone
frames. -/
theorem claim_C4_compaction (s : DBState) (fs : List Frame) (h : WF s fs) :
    ∃ s' gs, MyDatabase.compact s = .ok s' ∧
      (∀ k, MyDatabase.get s' k = MyDatabase.get s k) ∧
      s'.log.length ≤ s.log.length ∧
      s'.log = logOf gs ∧
      (∀ g ∈ gs, g.typ = EntryType.Data) ∧
      (gs.map Frame.key).Nodup ∧
      (∀ k, (∃ g ∈ gs, g.key = k) ↔ ∃ v, MyDatabase.get s k = .ok (some v)) := by
  obtain ⟨gs, hc, hgood, hdata, hnodup, hlv, hlen, hmem⟩ := compact_spec s fs h
  refine ⟨⟨logOf gs, indexOf gs, s.maxSize⟩, gs, hc, ?_, ?_, rfl, hdata, hnodup, ?_⟩
  · intro k
    rw [get_WF _ gs ⟨hgood, rfl, rfl⟩ k, get_WF s fs h k, hlv k]
  · have hsl : s.log = logOf fs := h.2.1
    show (logOf gs).length ≤ s.log.length
    rw [hsl]
    exact hlen
  · intro k
    rw [hmem k, get_WF s fs h k]
    constructor
    · intro hne
      cases hlvk : liveValue fs k with
      | none => exact absurd hlvk hne
      | some v => exact ⟨v, rfl⟩
    · rintro ⟨v, hv⟩ hnone
      rw [hnone] at hv
      simp at hv

theorem claim_C4_witness :
    WF ⟨logOf [⟨EntryType.Data, [1], [2]⟩], indexOf [⟨EntryType.Data, [1], [2]⟩], 0⟩
        [⟨EntryType.Data, [1], [2]⟩] ∧
      ∃ s' gs,
        MyDatabase.compact
            ⟨logOf [⟨EntryType.Data, [1], [2]⟩], indexOf [⟨EntryType.Data, [1], [2]⟩], 0⟩ =
          .ok s' ∧
        (∀ k, MyDatabase.get s' k =
          MyDatabase.get
            ⟨logOf [⟨EntryType.Data, [1], [2]⟩], indexOf [⟨EntryType.Data, [1], [2]⟩], 0⟩ k) ∧
        s'.log.length ≤
          (DBState.mk (logOf [⟨EntryType.Data, [1], [2]⟩])
            (indexOf [⟨EntryType.Data, [1], [2]⟩]) 0).log.length ∧
        s'.log = logOf gs ∧
        (∀ g ∈ gs, g.typ = EntryType.Data) ∧
        (gs.map Frame.key).Nodup ∧
        (∀ k, (∃ g ∈ gs, g.key = k) ↔
          ∃ v, MyDatabase.get
              ⟨logOf [⟨EntryType.Data, [1], [2]⟩], indexOf [⟨EntryType.Data, [1], [2]⟩], 0⟩ k =
            .ok (some v)) :=
  ⟨⟨by decide, rfl, rfl⟩,
    claim_C4_compaction _ [⟨EntryType.Data, [1], [2]⟩] ⟨by decide, rfl, rfl⟩⟩

/-- C7.  Corrupted-on-open: opening a log over which the iterator reports
any record with a failed checksum (for example one whose last-but-one
frame has a corrupted checksum trailer) fails with `CorruptedData`: the
engine refuses to open. -/
theorem claim_C7_corrupted_open (bytes : Bytes) (maxSize : Nat)
    (h : ∃ r ∈ (logRecords bytes).1, r.checksum_ok = false) :
    MyDatabase.new bytes maxSize = .error .CorruptedData := by
  have hrec : recover_index bytes = .error .CorruptedData := by
    rw [recover_index]
    rw [recoverFromRecords_corrupt (logRecords bytes).1 h []]
  rw [MyDatabase.new, hrec]

theorem claim_C7_witness :
    (∃ r ∈ (logRecords [1, 0, 0, 0, 0, 0, 0, 0, 0, 0, 0, 0, 2,
        1, 0, 0, 0, 0, 0, 0, 0, 0, 0, 0, 0, 1]).1, r.checksum_ok = false) ∧
      MyDatabase.new [1, 0, 0, 0, 0, 0, 0, 0, 0, 0, 0, 0, 2,
        1, 0, 0, 0, 0, 0, 0, 0, 0, 0, 0, 0, 1] 0 = .error .CorruptedData :=
  ⟨by decide, claim_C7_corrupted_open _ 0 (by decide)⟩

/-- C8.  Torn tail tolerance: over a log that is a concatenation of
well-formed frames followed by a strict prefix of one further frame, the
iterator yields exactly the whole frames' records in file order (all
checksum-valid) and ends normally, and opening such a log succeeds,
recovering the index of the whole frames. -/
theorem claim_C8_torn_tail (fs : List Frame) (hfs : ∀ f ∈ fs, GoodFrame f)
    (f0 : Frame) (hf0 : GoodFrame f0) (p : Bytes)
    (hplen : p.length < (frameBytes f0).length)
    (hpre : p = (frameBytes f0).take p.length) (maxSize : Nat) :
    logRecords (logOf fs ++ p) = (recordsOf fs 0, none) ∧
    (∀ r ∈ (logRecords (logOf fs ++ p)).1, r.checksum_ok = true) ∧
    MyDatabase.new (logOf fs ++ p) maxSize =
      .ok ⟨logOf fs ++ p, indexOf fs, maxSize⟩ := by
  have htail := logIterLoop_prefix f0 hf0 p hplen hpre
  have hlr : logRecords (logOf fs ++ p) = (recordsOf fs 0, none) := by
    rw [logRecords]
    exact logIterLoop_frames p htail fs hfs _ 0 le_rfl
  refine ⟨hlr, ?_, ?_⟩
  · intro r hr
    rw [hlr] at hr
    exact recordsOf_checksum fs 0 r hr
  · have hrec : recover_index (logOf fs ++ p) = .ok (indexOf fs) := by
      rw [recover_index]
      rw [hlr]
      show (match recoverFromRecords [] (recordsOf fs 0) with
        | Except.error e => Except.error e
        | Except.ok idx =>
            match (none : Option DatabaseError) with
            | some e => Except.error e
            | none => Except.ok idx) = Except.ok (indexOf fs)
      rw [recoverFromRecords_ok fs 0 []]
      rfl
    rw [MyDatabase.new, hrec]

theorem claim_C8_witness :
    (∀ f ∈ ([⟨EntryType.Tombstone, [], []⟩] : List Frame), GoodFrame f) ∧
      GoodFrame ⟨EntryType.Tombstone, [], []⟩ ∧
      ([1, 0] : Bytes).length < (frameBytes ⟨EntryType.Tombstone, [], []⟩).length ∧
      ([1, 0] : Bytes) = (frameBytes ⟨EntryType.Tombstone, [], []⟩).take
        ([1, 0] : Bytes).length ∧
      (logRecords (logOf [⟨EntryType.Tombstone, [], []⟩] ++ [1, 0]) =
        (recordsOf [⟨EntryType.Tombstone, [], []⟩] 0, none) ∧
      (∀ r ∈ (logRecords (logOf [⟨EntryType.Tombstone, [], []⟩] ++ [1, 0])).1,
        r.checksum_ok = true) ∧
      MyDatabase.new (logOf [⟨EntryType.Tombstone, [], []⟩] ++ [1, 0]) 0 =
        .ok ⟨logOf [⟨EntryType.Tombstone, [], []⟩] ++ [1, 0],
          indexOf [⟨EntryType.Tombstone, [], []⟩], 0⟩) :=
  ⟨by decide, by decide, by decide, by decide,
    claim_C8_torn_tail [⟨EntryType.Tombstone, [], []⟩] (by decide)
      ⟨EntryType.Tombstone, [], []⟩ (by decide) [1, 0] (by decide) (by decide) 0⟩

/-- C9.  Single-byte checksum detection: mutate any one byte of a frame
produced by the record codec at a position strictly before the 4-byte
checksum trailer (to a different byte value < 256); then the sum mod 2^32
of the bytes preceding the trailer in the mutated frame differs from the
checksum stored in the (untouched) trailer. -/
theorem claim_C9_checksum_detects (t : EntryType) (k v : Bytes)
    (hkb : ∀ x ∈ k, x < 256) (hvb : ∀ x ∈ v, x < 256)
    (i b : Nat) (hi : i + 4 < (DataEntry.mk t k v).to_bytes.length)
    (hb : b < 256) (hne : b ≠ (DataEntry.mk t k v).to_bytes.getD i 0) :
    checksumFold (((DataEntry.mk t k v).to_bytes.set i b).take
        ((DataEntry.mk t k v).to_bytes.length - 4)) ≠
      fromBe32
        (((DataEntry.mk t k v).to_bytes.set i b).getD
          ((DataEntry.mk t k v).to_bytes.length - 4) 0)
        (((DataEntry.mk t k v).to_bytes.set i b).getD
          ((DataEntry.mk t k v).to_bytes.length - 4 + 1) 0)
        (((DataEntry.mk t k v).to_bytes.set i b).getD
          ((DataEntry.mk t k v).to_bytes.length - 4 + 2) 0)
        (((DataEntry.mk t k v).to_bytes.set i b).getD
          ((DataEntry.mk t k v).to_bytes.length - 4 + 3) 0) := by
  have hpay := payload_length t k v
  have htb := to_bytes_length t k v
  have hiP : i < (payloadBytes t k v).length := by omega
  have hsetlen : ((payloadBytes t k v).set i b).length = (payloadBytes t k v).length := by
    simp
  have hset : (DataEntry.mk t k v).to_bytes.set i b =
      (payloadBytes t k v).set i b ++ be32 (checksumFold (payloadBytes t k v)) := by
    rw [to_bytes_payload]
    exact List.set_append_left _ _ hiP
  have hlen4 : (DataEntry.mk t k v).to_bytes.length - 4 = (payloadBytes t k v).length := by
    omega
  have htake : ((DataEntry.mk t k v).to_bytes.set i b).take
      ((DataEntry.mk t k v).to_bytes.length - 4) = (payloadBytes t k v).set i b := by
    rw [hset, hlen4, ← hsetlen, List.take_left]
  have hgd : ∀ j, ((DataEntry.mk t k v).to_bytes.set i b).getD
      ((DataEntry.mk t k v).to_bytes.length - 4 + j) 0 =
      (be32 (checksumFold (payloadBytes t k v))).getD j 0 := by
    intro j
    rw [hset, hlen4, List.getD_append_right _ _ _ _ (by rw [hsetlen]; omega), hsetlen,
      Nat.add_sub_cancel_left]
  have htr : fromBe32 ((be32 (checksumFold (payloadBytes t k v))).getD 0 0)
      ((be32 (checksumFold (payloadBytes t k v))).getD 1 0)
      ((be32 (checksumFold (payloadBytes t k v))).getD 2 0)
      ((be32 (checksumFold (payloadBytes t k v))).getD 3 0) =
      checksumFold (payloadBytes t k v) := by
    show fromBe32 (checksumFold (payloadBytes t k v) % 2 ^ 32 / 2 ^ 24)
      (checksumFold (payloadBytes t k v) % 2 ^ 24 / 2 ^ 16)
      (checksumFold (payloadBytes t k v) % 2 ^ 16 / 2 ^ 8)
      (checksumFold (payloadBytes t k v) % 256) = checksumFold (payloadBytes t k v)
    rw [fromBe32_be32, checksumFold_eq_sum]
    omega
  have hgd0 := hgd 0
  rw [Nat.add_zero] at hgd0
  rw [htake, hgd0, hgd 1, hgd 2, hgd 3, htr]
  have hx : (payloadBytes t k v).getD i 0 < 256 := by
    refine payloadBytes_lt t k v hkb hvb _ ?_
    rw [List.getD_eq_getElem _ _ hiP]
    exact List.getElem_mem _
  have hxb : (payloadBytes t k v).getD i 0 ≠ b := by
    intro hc
    refine hne ?_
    rw [to_bytes_payload, List.getD_append _ _ _ _ hiP, hc]
  have hsum := sum_set b (payloadBytes t k v) i hiP
  rw [checksumFold_eq_sum, checksumFold_eq_sum]
  omega

theorem claim_C9_witness :
    (∀ x ∈ ([] : Bytes), x < 256) ∧ (∀ x ∈ ([] : Bytes), x < 256) ∧
      0 + 4 < (DataEntry.mk EntryType.Tombstone [] []).to_bytes.length ∧
      (0 : Nat) < 256 ∧
      (0 : Nat) ≠ (DataEntry.mk EntryType.Tombstone [] []).to_bytes.getD 0 0 ∧
      checksumFold (((DataEntry.mk EntryType.Tombstone [] []).to_bytes.set 0 0).take
          ((DataEntry.mk EntryType.Tombstone [] []).to_bytes.length - 4)) ≠
        fromBe32
          (((DataEntry.mk EntryType.Tombstone [] []).to_bytes.set 0 0).getD
            ((DataEntry.mk EntryType.Tombstone [] []).to_bytes.length - 4) 0)
          (((DataEntry.mk EntryType.Tombstone [] []).to_bytes.set 0 0).getD
            ((DataEntry.mk EntryType.Tombstone [] []).to_bytes.length - 4 + 1) 0)
          (((DataEntry.mk EntryType.Tombstone [] []).to_bytes.set 0 0).getD
            ((DataEntry.mk EntryType.Tombstone [] []).to_bytes.length - 4 + 2) 0)
          (((DataEntry.mk EntryType.Tombstone [] []).to_bytes.set 0 0).getD
            ((DataEntry.mk EntryType.Tombstone [] []).to_bytes.length - 4 + 3) 0) :=
  ⟨by decide, by decide, by decide, by decide, by decide,
    claim_C9_checksum_detects EntryType.Tombstone [] [] (by decide) (by decide) 0 0
      (by decide) (by decide) (by decide)⟩

/-- C6 counterexample.  Two frame buffers whose recomputed byte-sum over
`[0, end_of_payload)` differs from the stored trailer checksum yet whose
decode is `ok none`, not `CorruptedData`: a Tombstone-tagged buffer
(sum 1 over `[0, 9)`, trailer 2) returns on the tombstone tag before the
checksum is verified, and a Data buffer (key `[5]`, sum 17 over
`[0, 13)`, trailer 18) queried with the non-matching key `[9]` returns
on the key mismatch before the checksum is verified. -/
theorem claim_C6_counterexample :
    (decode_buffer [1, 0, 0, 0, 0, 0, 0, 0, 0, 0, 0, 0, 2] [] = .ok none ∧
      checksumFold (([1, 0, 0, 0, 0, 0, 0, 0, 0, 0, 0, 0, 2] : Bytes).take 9) ≠
        fromBe32 (([1, 0, 0, 0, 0, 0, 0, 0, 0, 0, 0, 0, 2] : Bytes).getD 9 0)
          (([1, 0, 0, 0, 0, 0, 0, 0, 0, 0, 0, 0, 2] : Bytes).getD 10 0)
          (([1, 0, 0, 0, 0, 0, 0, 0, 0, 0, 0, 0, 2] : Bytes).getD 11 0)
          (([1, 0, 0, 0, 0, 0, 0, 0, 0, 0, 0, 0, 2] : Bytes).getD 12 0)) ∧
    (decode_buffer [0, 0, 0, 0, 1, 0, 0, 0, 3, 5, 0, 1, 7, 0, 0, 0, 18] [9] = .ok none ∧
      checksumFold (([0, 0, 0, 0, 1, 0, 0, 0, 3, 5, 0, 1, 7, 0, 0, 0, 18] : Bytes).take 13) ≠
        fromBe32 (([0, 0, 0, 0, 1, 0, 0, 0, 3, 5, 0, 1, 7, 0, 0, 0, 18] : Bytes).getD 13 0)
          (([0, 0, 0, 0, 1, 0, 0, 0, 3, 5, 0, 1, 7, 0, 0, 0, 18] : Bytes).getD 14 0)
          (([0, 0, 0, 0, 1, 0, 0, 0, 3, 5, 0, 1, 7, 0, 0, 0, 18] : Bytes).getD 15 0)
          (([0, 0, 0, 0, 1, 0, 0, 0, 3, 5, 0, 1, 7, 0, 0, 0, 18] : Bytes).getD 16 0)) := by
  decide

/-- C6 (amended).  A buffer of length at least 9 whose type byte is 1
decodes to absent with no checksum verification; on the Data path (type
byte ≠ 1), when the declared total length fits: if the embedded key
equals the queried key, a mismatch between the recomputed byte-sum over
`[0, end_of_payload)` and the stored trailer checksum yields
`CorruptedData`, while if the embedded key differs from the queried key
the decode returns absent before any checksum verification. -/
theorem claim_C6_amended (buffer key : Bytes) (h9 : 9 ≤ buffer.length) :
    (buffer.getD 0 0 = 1 → decode_buffer buffer key = .ok none) ∧
    (buffer.getD 0 0 ≠ 1 →
      9 + bufKeyLen buffer + bufValLen buffer + 4 ≤ buffer.length →
      (buffer.drop 9).take (bufKeyLen buffer) = key →
      checksumFold (buffer.take (9 + bufKeyLen buffer + bufValLen buffer)) ≠
        fromBe32 (buffer.getD (9 + bufKeyLen buffer + bufValLen buffer) 0)
          (buffer.getD (9 + bufKeyLen buffer + bufValLen buffer + 1) 0)
          (buffer.getD (9 + bufKeyLen buffer + bufValLen buffer + 2) 0)
          (buffer.getD (9 + bufKeyLen buffer + bufValLen buffer + 3) 0) →
      decode_buffer buffer key = .error .CorruptedData) ∧
    (buffer.getD 0 0 ≠ 1 →
      9 + bufKeyLen buffer + bufValLen buffer + 4 ≤ buffer.length →
      (buffer.drop 9).take (bufKeyLen buffer) ≠ key →
      decode_buffer buffer key = .ok none) := by
  refine ⟨?_, ?_, ?_⟩
  · intro h1
    rw [decode_buffer, if_neg (by omega), if_pos h1]
  · intro h1 htot hkey hsum
    rw [decode_buffer, if_neg (by omega), if_neg h1, if_neg (by omega),
      if_neg (by rw [hkey]; simp), if_pos hsum]
  · intro h1 htot hkey
    rw [decode_buffer, if_neg (by omega), if_neg h1, if_neg (by omega), if_pos hkey]

theorem claim_C6_amended_witness :
    (9 ≤ ([0, 0, 0, 0, 1, 0, 0, 0, 3, 5, 0, 1, 7, 0, 0, 0, 18] : Bytes).length) ∧
      ((([0, 0, 0, 0, 1, 0, 0, 0, 3, 5, 0, 1, 7, 0, 0, 0, 18] : Bytes).getD 0 0 = 1 →
        decode_buffer [0, 0, 0, 0, 1, 0, 0, 0, 3, 5, 0, 1, 7, 0, 0, 0, 18] [5] = .ok none) ∧
      (([0, 0, 0, 0, 1, 0, 0, 0, 3, 5, 0, 1, 7, 0, 0, 0, 18] : Bytes).getD 0 0 ≠ 1 →
        9 + bufKeyLen [0, 0, 0, 0, 1, 0, 0, 0, 3, 5, 0, 1, 7, 0, 0, 0, 18] +
            bufValLen [0, 0, 0, 0, 1, 0, 0, 0, 3, 5, 0, 1, 7, 0, 0, 0, 18] + 4 ≤
          ([0, 0, 0, 0, 1, 0, 0, 0, 3, 5, 0, 1, 7, 0, 0, 0, 18] : Bytes).length →
        (([0, 0, 0, 0, 1, 0, 0, 0, 3, 5, 0, 1, 7, 0, 0, 0, 18] : Bytes).drop 9).take
            (bufKeyLen [0, 0, 0, 0, 1, 0, 0, 0, 3, 5, 0, 1, 7, 0, 0, 0, 18]) = [5] →
        checksumFold (([0, 0, 0, 0, 1, 0, 0, 0, 3, 5, 0, 1, 7, 0, 0, 0, 18] : Bytes).take
            (9 + bufKeyLen [0, 0, 0, 0, 1, 0, 0, 0, 3, 5, 0, 1, 7, 0, 0, 0, 18] +
              bufValLen [0, 0, 0, 0, 1, 0, 0, 0, 3, 5, 0, 1, 7, 0, 0, 0, 18])) ≠
          fromBe32
            (([0, 0, 0, 0, 1, 0, 0, 0, 3, 5, 0, 1, 7, 0, 0, 0, 18] : Bytes).getD
              (9 + bufKeyLen [0, 0, 0, 0, 1, 0, 0, 0, 3, 5, 0, 1, 7, 0, 0, 0, 18] +
                bufValLen [0, 0, 0, 0, 1, 0, 0, 0, 3, 5, 0, 1, 7, 0, 0, 0, 18]) 0)
            (([0, 0, 0, 0, 1, 0, 0, 0, 3, 5, 0, 1, 7, 0, 0, 0, 18] : Bytes).getD
              (9 + bufKeyLen [0, 0, 0, 0, 1, 0, 0, 0, 3, 5, 0, 1, 7, 0, 0, 0, 18] +
                bufValLen [0, 0, 0, 0, 1, 0, 0, 0, 3, 5, 0, 1, 7, 0, 0, 0, 18] + 1) 0)
            (([0, 0, 0, 0, 1, 0, 0, 0, 3, 5, 0, 1, 7, 0, 0, 0, 18] : Bytes).getD
              (9 + bufKeyLen [0, 0, 0, 0, 1, 0, 0, 0, 3, 5, 0, 1, 7, 0, 0, 0, 18] +
                bufValLen [0, 0, 0, 0, 1, 0, 0, 0, 3, 5, 0, 1, 7, 0, 0, 0, 18] + 2) 0)
            (([0, 0, 0, 0, 1, 0, 0, 0, 3, 5, 0, 1, 7, 0, 0, 0, 18] : Bytes).getD
              (9 + bufKeyLen [0, 0, 0, 0, 1, 0, 0, 0, 3, 5, 0, 1, 7, 0, 0, 0, 18] +
                bufValLen [0, 0, 0, 0, 1, 0, 0, 0, 3, 5, 0, 1, 7, 0, 0, 0, 18] + 3) 0) →
        decode_buffer [0, 0, 0, 0, 1, 0, 0, 0, 3, 5, 0, 1, 7, 0, 0, 0, 18] [5] =
          .error .CorruptedData) ∧
      (([0, 0, 0, 0, 1, 0, 0, 0, 3, 5, 0, 1, 7, 0, 0, 0, 18] : Bytes).getD 0 0 ≠ 1 →
        9 + bufKeyLen [0, 0, 0, 0, 1, 0, 0, 0, 3, 5, 0, 1, 7, 0, 0, 0, 18] +
            bufValLen [0, 0, 0, 0, 1, 0, 0, 0, 3, 5, 0, 1, 7, 0, 0, 0, 18] + 4 ≤
          ([0, 0, 0, 0, 1, 0, 0, 0, 3, 5, 0, 1, 7, 0, 0, 0, 18] : Bytes).length →
        (([0, 0, 0, 0, 1, 0, 0, 0, 3, 5, 0, 1, 7, 0, 0, 0, 18] : Bytes).drop 9).take
            (bufKeyLen [0, 0, 0, 0, 1, 0, 0, 0, 3, 5, 0, 1, 7, 0, 0, 0, 18]) ≠ [5] →
        decode_buffer [0, 0, 0, 0, 1, 0, 0, 0, 3, 5, 0, 1, 7, 0, 0, 0, 18] [5] = .ok none)) :=
  ⟨by decide, claim_C6_amended [0, 0, 0, 0, 1, 0, 0, 0, 3, 5, 0, 1, 7, 0, 0, 0, 18] [5]
    (by decide)⟩

/-- C10.  The value decoder returns the empty byte string exactly on the
empty input: decoding the empty input succeeds with the empty output, and
any successful decode of a non-empty input produces at least one byte
(every accepted chunk contributes at least one output byte). -/
theorem claim_C10_decoder_empty_iff :
    lz77_decode [] = some [] ∧
    ∀ (input out : Bytes), lz77_decode input = some out → (out = [] ↔ input = []) := by
  refine ⟨by decide, fun input out h => ?_⟩
  by_cases hin : input.isEmpty = true
  · have : input = [] := List.isEmpty_iff.mp hin
    subst this
    rw [lz77_decode] at h
    simp at h
    subst h
    simp
  · have hne : input ≠ [] := fun hc => hin (by simp [hc])
    rw [lz77_decode, if_neg hin] at h
    obtain ⟨-, hgrow⟩ := decLoop_grows input.length input [] out h
    have : 0 < out.length := hgrow hne
    constructor
    · intro hc
      rw [hc] at this
      simp at this
    · intro hc
      exact absurd hc hne

theorem claim_C10_witness : (([7] : Bytes) = [] ↔ ([0, 1, 7] : Bytes) = []) :=
  claim_C10_decoder_empty_iff.2 [0, 1, 7] [7] (by decide)

example : lz77_decode (lz77_encode [7, 7, 7, 7, 7, 7, 7]) = some [7, 7, 7, 7, 7, 7, 7] := by decide
example : decode_buffer (DataEntry.mk .Data [5] [7]).to_bytes [5] = .ok (some [7]) := by decide
example : decode_buffer (DataEntry.mk .Tombstone [5] []).to_bytes [5] = .ok none := by decide
example :
    (MyDatabase.set ⟨[], [], 0⟩ [1] [2]).bind (fun s => MyDatabase.get s [1]) =
      .ok (some [2]) := by decide
example :
    ((MyDatabase.set ⟨[], [], 0⟩ [1] [2]).bind fun s =>
      (MyDatabase.delete s [1]).bind fun s' => MyDatabase.get s' [1]) = .ok none := by decide
example :
    ((MyDatabase.set ⟨[], [], 0⟩ [1] [2]).bind fun s =>
      (MyDatabase.delete s [1]).bind fun s' =>
        (MyDatabase.compact s').bind fun s'' => .ok s''.log) = .ok [] := by decide
example :
    (logRecords ((DataEntry.mk .Tombstone [] []).to_bytes ++ [1, 0])).2 = none := by decide
example :
    recover_index [1, 0, 0, 0, 0, 0, 0, 0, 0, 0, 0, 0, 2] = .error .CorruptedData := by decide
example : lz77_decode (lz77_encode [1, 2, 3, 9, 1, 2, 3, 8, 1, 2, 3]) = some [1, 2, 3, 9, 1, 2, 3, 8, 1, 2, 3] := by decide
example : lz77_encode [1, 2, 3, 9, 1, 2, 3, 8, 1, 2, 3] = [0, 4, 1, 2, 3, 9, 1, 0, 4, 3, 0, 1, 8, 1, 0, 8, 3] := by decide
example : find_longest_match [1, 2, 3, 9, 1, 2, 3, 8, 1, 2, 3] 8 = (8, 3) := by decide

end RustDb
